import Mathlib

/-!
# ADB Cleaner: package catalog and selection workflow

A shallow embedding of `internal/packages/manager.go` and of the batch and key
handling of `internal/ui/app.go`, with the properties of the specification
stated and proved over it.

Conventions of the embedding

* Go strings are modelled as lists of Unicode code points (`Str`); the text is
  assumed to be valid UTF-8, so that the byte-wise and the rune-wise reading of
  the `strings` functions used by the program coincide.
* A `*Package` is modelled by the position of the package in the catalog: the
  catalog is the only place where packages are allocated (`LoadPackages`), one
  object per manifest line.
* Files, the line scanner, the device bridge and the terminal widgets are the
  environment: they appear as explicit arguments.
-/

namespace ADBCleaner

/-! ## Go `strings` primitives used by the program -/

/-- Go string, as its sequence of runes. -/
abbrev Str := List Char

/-- Rune classification of `unicode.IsSpace`: the white-space code points. -/
def isSpace (c : Char) : Bool :=
  let n := c.toNat
  n == 0x09 || n == 0x0A || n == 0x0B || n == 0x0C || n == 0x0D || n == 0x20 ||
  n == 0x85 || n == 0xA0 || n == 0x1680 || (0x2000 ≤ n && n ≤ 0x200A) ||
  n == 0x2028 || n == 0x2029 || n == 0x202F || n == 0x205F || n == 0x3000

/-- Leading white space removed (`strings.TrimLeftFunc(s, unicode.IsSpace)`). -/
def TrimLeft (s : Str) : Str := s.dropWhile isSpace

/-- Trailing white space removed (`strings.TrimRightFunc(s, unicode.IsSpace)`). -/
def TrimRight (s : Str) : Str := (s.reverse.dropWhile isSpace).reverse

/-- Go `strings.TrimSpace`: leading and trailing white space removed. -/
def TrimSpace (s : Str) : Str := TrimRight (TrimLeft s)

/-- Go `strings.HasPrefix`. -/
def HasPrefix (s pre : Str) : Bool := pre.isPrefixOf s

/-- Go `strings.Contains`: `substr` occurs in `s` at some offset. -/
def Contains : Str → Str → Bool
  | [], substr => substr.isEmpty
  | c :: cs, substr => substr.isPrefixOf (c :: cs) || Contains cs substr

/-- Go `strings.Split(s, sep)` for a one-rune separator: all fields, in order;
the empty string has the single field `""`. -/
def Split (sep : Char) : Str → List Str
  | [] => [[]]
  | c :: cs =>
    if c = sep then [] :: Split sep cs
    else
      match Split sep cs with
      | [] => [[c]]
      | f :: fs => (c :: f) :: fs

/-- Go `strings.SplitN(s, sep, n)` for a one-rune separator and `n ≥ 0`: at most
`n` fields, the last one being the unsplit remainder. -/
def SplitN (sep : Char) : Nat → Str → List Str
  | 0, _ => []
  | 1, s => [s]
  | n + 2, s =>
    if sep ∈ s then
      s.takeWhile (fun c => c != sep) :: SplitN sep (n + 1) (s.dropWhile (fun c => c != sep)).tail
    else [s]

/-- Go `strings.ToLower`, rune by rune; `lower` stands for `unicode.ToLower`. -/
def ToLower (lower : Char → Char) (s : Str) : Str := s.map lower

/-- ASCII restriction of `unicode.ToLower`, used to evaluate examples. -/
def asciiLower (c : Char) : Char :=
  if 65 ≤ c.toNat ∧ c.toNat ≤ 90 then Char.ofNat (c.toNat + 32) else c


/-! ## `internal/packages/manager.go` -/

/-- Package represents a package to be removed. -/
structure Package where
  Name : Str
  Description : Str := []
  Category : Str := []
  RiskLevel : Str := []
  Installed : Bool := false
  Selected : Bool := false
  deriving DecidableEq, Repr

/-- Manager manages packages; position in `packages` is the identity of a
package object. -/
structure Manager where
  packages : List Package := []
  deriving DecidableEq, Repr

/-- NewManager creates a new package manager. -/
def NewManager : Manager := { packages := [] }

/-- What a `bufio.Scanner` over an opened file delivers: the lines returned by
the successive `Scan()` calls, then the value of `Err()` once `Scan()` has
returned false. -/
structure Scanner where
  tokens : List Str
  err : Option Str := none
  deriving DecidableEq, Repr

/-- Result of `os.Open` followed by `bufio.NewScanner`. -/
abbrev OpenResult := Except Str Scanner

/-- Body of the scanning loop of `LoadPackages` for one scanned line: `none`
when the line is skipped (`continue`), otherwise the package appended. -/
def parseLine (text : Str) : Option Package :=
  let line := TrimSpace text
  -- Skip empty lines and comments
  if line = [] || HasPrefix line ['#'] then none
  else
    let pkg : Package := { Name := line, Selected := false, Installed := false }
    -- Check if line has metadata
    if Contains line ['#'] then
      let parts := SplitN '#' 2 line
      let pkg := { pkg with Name := TrimSpace (parts.getD 0 []) }
      let metadata := TrimSpace (parts.getD 1 [])
      -- Parse metadata
      if Contains metadata ['|'] then
        let metaParts := Split '|' metadata
        let pkg := if metaParts.length ≥ 1 then
          { pkg with Description := TrimSpace (metaParts.getD 0 []) } else pkg
        let pkg := if metaParts.length ≥ 2 then
          { pkg with Category := TrimSpace (metaParts.getD 1 []) } else pkg
        let pkg := if metaParts.length ≥ 3 then
          { pkg with RiskLevel := TrimSpace (metaParts.getD 2 []) } else pkg
        some pkg
      else
        some { pkg with Description := metadata }
    else some pkg

/-- LoadPackages loads packages from a file: the error or the packages
returned, and the manager afterwards. -/
def LoadPackages (m : Manager) (file : OpenResult) : Except Str (List Package) × Manager :=
  match file with
  | .error e => (.error ("failed to open packages file: ".toList ++ e), m)
  | .ok scanner =>
    let packages := scanner.tokens.filterMap parseLine
    match scanner.err with
    | some e => (.error ("error reading packages file: ".toList ++ e), m)
    | none => (.ok packages, { m with packages := packages })

/-- A `*Package`: the position of the package object in the catalog. -/
abbrev PkgRef := Nat

instance : Inhabited Package := ⟨{ Name := [] }⟩

/-- Dereference of a package pointer. -/
def Manager.get (m : Manager) (r : PkgRef) : Package := m.packages.getD r default

/-- The loop `for _, pkg := range pkgs { if p(pkg) { out = append(out, pkg) } }`
over the catalog, `i` being the position of the head of `pkgs`: the pointers
collected, in catalog order. -/
def refsWhere (p : Package → Bool) : List Package → Nat → List PkgRef
  | [], _ => []
  | pkg :: rest, i =>
    if p pkg then i :: refsWhere p rest (i + 1) else refsWhere p rest (i + 1)

/-- UpdateInstalledStatus updates the installed status of packages. -/
def UpdateInstalledStatus (m : Manager) (installedPackages : List Str) : Manager :=
  { m with packages := m.packages.map fun pkg =>
      { pkg with Installed := decide (pkg.Name ∈ installedPackages) } }

/-- GetPackages returns all packages. -/
def GetPackages (m : Manager) : List PkgRef := List.range m.packages.length

/-- GetSelectedPackages returns selected packages. -/
def GetSelectedPackages (m : Manager) : List PkgRef :=
  refsWhere (fun pkg => pkg.Selected) m.packages 0

/-- SelectAll selects all packages. -/
def SelectAll (m : Manager) : Manager :=
  { m with packages := m.packages.map fun pkg => { pkg with Selected := true } }

/-- DeselectAll deselects all packages. -/
def DeselectAll (m : Manager) : Manager :=
  { m with packages := m.packages.map fun pkg => { pkg with Selected := false } }

/-- SelectByRiskLevel selects packages by risk level. -/
def SelectByRiskLevel (m : Manager) (riskLevel : Str) : Manager :=
  { m with packages := m.packages.map fun pkg =>
      if pkg.RiskLevel = riskLevel then { pkg with Selected := true } else pkg }

/-- SelectByCategory selects packages by category. -/
def SelectByCategory (m : Manager) (category : Str) : Manager :=
  { m with packages := m.packages.map fun pkg =>
      if pkg.Category = category then { pkg with Selected := true } else pkg }

/-- SelectInstalled selects only installed packages. -/
def SelectInstalled (m : Manager) : Manager :=
  { m with packages := m.packages.map fun pkg =>
      if pkg.Installed then { pkg with Selected := true } else pkg }

/-- The assignment `pkgs[i].Selected = !pkgs[i].Selected` for an index in range. -/
def flipSelected (pkgs : List Package) (i : Nat) : List Package :=
  pkgs.modify (fun pkg => { pkg with Selected := !pkg.Selected }) i

/-- ToggleSelection toggles the selection of a package. -/
def ToggleSelection (m : Manager) (index : Int) : Manager :=
  if index ≥ 0 ∧ index < (m.packages.length : Int) then
    { m with packages := flipSelected m.packages index.toNat }
  else m

/-- GetTotalCount returns the total number of packages. -/
def GetTotalCount (m : Manager) : Nat := m.packages.length

/-- GetSelectedCount returns the number of selected packages. -/
def GetSelectedCount (m : Manager) : Nat :=
  m.packages.foldl (fun count pkg => if pkg.Selected then count + 1 else count) 0

/-- GetInstalledCount returns the number of installed packages. -/
def GetInstalledCount (m : Manager) : Nat :=
  m.packages.foldl (fun count pkg => if pkg.Installed then count + 1 else count) 0

/-- The line `fmt.Sprintf("%s|%s|%s|%s\n", ...)` written for one package. -/
def backupLine (pkg : Package) : Str :=
  pkg.Name ++ ['|'] ++ pkg.Description ++ ['|'] ++ pkg.Category ++ ['|'] ++ pkg.RiskLevel ++ ['\n']

/-- The file returned by `os.Create`: `writes = some n` when the `n+1`-th
`WriteString` on it fails, `none` when every write succeeds. -/
structure OutFile where
  writes : Option Nat := none
  deriving DecidableEq, Repr

/-- The writing loop of `SaveBackup`: the error returned, if any, and the text
written to the file so far. -/
def saveLoop : Option Nat → List Package → Str → Option Str × Str
  | _, [], out => (none, out)
  | writes, pkg :: rest, out =>
    if pkg.Selected then
      match writes with
      | some 0 => (some "failed to write backup".toList, out)
      | some (n + 1) => saveLoop (some n) rest (out ++ backupLine pkg)
      | none => saveLoop none rest (out ++ backupLine pkg)
    else saveLoop writes rest out

/-- SaveBackup saves a backup of selected packages: the error returned, if any,
and the content of the backup file. The name of the file (directory and time
stamp) is not part of the model. -/
def SaveBackup (m : Manager) (create : Except Str OutFile) : Option Str × Str :=
  match create with
  | .error e => (some ("failed to create backup file: ".toList ++ e), [])
  | .ok file => saveLoop file.writes m.packages []

/-- The inner loop of `LoadBackup`: the first package named `name` is selected. -/
def selectFirst (name : Str) : List Package → List Package
  | [] => []
  | pkg :: rest =>
    if pkg.Name = name then { pkg with Selected := true } :: rest
    else pkg :: selectFirst name rest

/-- Body of the scanning loop of `LoadBackup` for one scanned line. -/
def loadBackupLine (m : Manager) (text : Str) : Manager :=
  let line := TrimSpace text
  if line = [] then m
  else
    let parts := Split '|' line
    if parts.length < 1 then m
    else
      let name := parts.getD 0 []
      { m with packages := selectFirst name m.packages }

/-- LoadBackup loads packages from a backup file: the error returned, if any,
and the manager afterwards. -/
def LoadBackup (m : Manager) (file : OpenResult) : Option Str × Manager :=
  match file with
  | .error e => (some ("failed to open backup file: ".toList ++ e), m)
  | .ok scanner =>
    let m := scanner.tokens.foldl loadBackupLine m
    match scanner.err with
    | some e => (some ("error reading backup file: ".toList ++ e), m)
    | none => (none, m)

/-- The test of the loop of `SearchPackages`, `query` already lower-cased. -/
def searchMatch (lower : Char → Char) (query : Str) (pkg : Package) : Bool :=
  Contains (ToLower lower pkg.Name) query || Contains (ToLower lower pkg.Description) query

/-- SearchPackages searches for packages by name or description. -/
def SearchPackages (lower : Char → Char) (m : Manager) (query : Str) : List PkgRef :=
  let query := ToLower lower query
  refsWhere (searchMatch lower query) m.packages 0

/-- FilterByRiskLevel filters packages by risk level. -/
def FilterByRiskLevel (m : Manager) (riskLevel : Str) : List PkgRef :=
  refsWhere (fun pkg => pkg.RiskLevel = riskLevel) m.packages 0

/-- FilterByCategory filters packages by category. -/
def FilterByCategory (m : Manager) (category : Str) : List PkgRef :=
  refsWhere (fun pkg => pkg.Category = category) m.packages 0

/-! ## `bufio.ScanLines` over a text -/

/-- The text cut after each `\n`; a last line without `\n` counts when it is
not empty. -/
def rawLines : Str → List Str
  | [] => []
  | c :: cs =>
    if c = '\n' then [] :: rawLines cs
    else
      match rawLines cs with
      | [] => [[c]]
      | t :: ts => (c :: t) :: ts

/-- The `dropCR` of `bufio`: one trailing `\r` removed. -/
def dropCR (s : Str) : Str := if s.getLast? = some '\r' then s.dropLast else s

/-- The lines a `bufio.Scanner` with the default split function delivers for a
text that is read without error, every line being shorter than the scanner's
buffer. -/
def ScanLines (text : Str) : List Str := (rawLines text).map dropCR

/-! ## The device bridge, as `internal/ui/app.go` uses it -/

/-- A Go result pair `(bool, error)`. -/
structure AdbResult where
  ok : Bool
  err : Option Str := none
  deriving DecidableEq, Repr

/-- The device bridge behind `adb.Client`, with its state `σ` (the device):
each call returns its result pair and the state it leaves. -/
structure Adapter (σ : Type) where
  IsPackageInstalled : σ → Str → AdbResult × σ
  UninstallPackage : σ → Str → Str → AdbResult × σ

/-- A call made to the device bridge. -/
inductive AdbCall where
  | IsPackageInstalled (pkg : Str)
  | UninstallPackage (pkg : Str) (userID : Str)
  deriving DecidableEq, Repr

/-- Device represents an Android device. -/
structure Device where
  ID : Str := []
  Manufacturer : Str := []
  Model : Str := []
  AndroidVersion : Str := []
  UserID : Str := []
  deriving DecidableEq, Repr

/-! ## `internal/ui/app.go` -/

/-- AppState represents current application state. -/
inductive AppState where
  | StateList
  | StateConfirm
  | StateProgress
  | StateDone
  | StateSearch
  deriving DecidableEq, Repr

/-- The `Type` of a `tea.KeyMsg`; `KeyOther` stands for every key type the
program does not name. -/
inductive KeyType where
  | KeyCtrlC | KeyEnter | KeyEsc | KeyUp | KeyDown | KeySpace
  | KeyF1 | KeyF2 | KeyF3 | KeyF4 | KeyF5
  | KeyTab | KeyBackspace | KeyRunes
  | KeyOther (code : Nat)
  deriving DecidableEq, Repr

/-- The messages `Update` receives; `other` stands for every message type the
program does not name. -/
inductive Msg where
  | KeyMsg (type : KeyType) (runes : Str)
  | WindowSizeMsg (Width Height : Int)
  | tickMsg
  | progressMsg (pkg status : Str)
  | doneMsg (success failed skipped : Nat)
  | other (tag : Nat)
  deriving DecidableEq, Repr

/-- The commands `Update` returns; `widget` stands for a command produced by a
terminal widget. -/
inductive Cmd where
  | nil
  | Quit
  | startDebloat
  | tickCmd
  | Blink
  | widget (tag : Nat)
  deriving DecidableEq, Repr

/-- The state of `list.Model` the program reads and writes: the displayed
items (each a `PackageItem` holding a package pointer), the index of the item
under the cursor, and the size. -/
structure ListModel where
  items : List PkgRef := []
  index : Int := 0
  width : Int := 0
  height : Int := 0
  deriving DecidableEq, Repr

/-- The method `Index` of `list.Model`: the index of the item under the cursor. -/
def ListModel.Index (l : ListModel) : Int := l.index

/-- The method `SetItems` of `list.Model`: the displayed items are replaced. -/
def ListModel.SetItems (l : ListModel) (items : List PkgRef) : ListModel :=
  { l with items := items }

/-- The method `SetItem` of `list.Model`: the assignment `items[index] = item`, a run-time
panic (`none`) when the index is out of range. -/
def ListModel.SetItem (l : ListModel) (index : Int) (item : PkgRef) : Option ListModel :=
  if 0 ≤ index ∧ index < (l.items.length : Int) then
    some { l with items := l.items.set index.toNat item }
  else none

/-- The method `SetWidth` of `list.Model`. -/
def ListModel.SetWidth (l : ListModel) (v : Int) : ListModel := { l with width := v }

/-- The method `SetHeight` of `list.Model`. -/
def ListModel.SetHeight (l : ListModel) (v : Int) : ListModel := { l with height := v }

/-- The state of `textinput.Model` the program reads: the text and the focus. -/
structure TextInput where
  value : Str := []
  focus : Bool := false
  deriving DecidableEq, Repr

/-- The method `Value` of `textinput.Model`: the text typed so far. -/
def TextInput.Value (t : TextInput) : Str := t.value

/-- The method `Focus` of `textinput.Model`. -/
def TextInput.Focus (t : TextInput) : TextInput := { t with focus := true }

/-- The behaviour of the terminal widgets the program delegates to (the
`bubbles` library and `unicode.ToLower`). -/
structure Bubbles where
  listUpdate : ListModel → Msg → ListModel × Cmd
  CursorUp : ListModel → ListModel
  CursorDown : ListModel → ListModel
  inputUpdate : TextInput → Msg → TextInput × Cmd
  lower : Char → Char

/-- Model represents application model. `packages` holds the pointers passed to
`NewApp`; the packages themselves live in `packageManager`. -/
structure Model where
  packageManager : Manager
  device : Device := {}
  packages : List PkgRef := []
  list : ListModel := {}
  searchInput : TextInput := {}
  logMessages : List Str := []
  width : Int := 0
  height : Int := 0
  state : AppState := .StateList
  selectedCount : Nat := 0
  successCount : Nat := 0
  failCount : Nat := 0
  skipCount : Nat := 0
  currentIndex : Int := 0
  dryRun : Bool := false
  deriving DecidableEq, Repr

/-- NewApp creates a new application. -/
def NewApp (pkgManager : Manager) (pkgs : List PkgRef) (device : Device) : Model :=
  { packageManager := pkgManager
    device := device
    packages := pkgs
    list := { items := pkgs }
    searchInput := {}
    state := .StateList
    logMessages := []
    dryRun := false }

/-- The method `addLog`. -/
def addLog (m : Model) (msg : Str) : Model :=
  { m with logMessages := m.logMessages ++ [msg] }

/-- The method `updateSelectedCount`. -/
def updateSelectedCount (m : Model) : Model :=
  { m with selectedCount := GetSelectedCount m.packageManager }

/-- The method `updateList`. -/
def updateList (m : Model) : Model :=
  { m with list := m.list.SetItems m.packages }

/-- The method `filterPackages`. -/
def filterPackages (w : Bubbles) (m : Model) : Model :=
  let query := m.searchInput.Value
  if query = [] then updateList m
  else
    let filtered := SearchPackages w.lower m.packageManager query
    { m with list := m.list.SetItems filtered }

/-- The variables of the loop of `startDebloat`, with the device state and the
calls made to the device bridge so far. -/
structure BatchState (σ : Type) where
  dev : σ
  calls : List AdbCall := []
  logMessages : List Str := []
  success : Nat := 0
  failed : Nat := 0
  skipped : Nat := 0

/-- Body of the loop of `startDebloat` for one selected package. -/
def debloatBody {σ : Type} (ad : Adapter σ) (dryRun : Bool) (userID : Str)
    (st : BatchState σ) (pkg : Package) : BatchState σ :=
  if dryRun then
    { st with logMessages := st.logMessages ++ ["[DRY-RUN] ".toList ++ pkg.Name]
              success := st.success + 1 }
  else if !pkg.Installed then
    { st with logMessages := st.logMessages ++ ["[SKIP] ".toList ++ pkg.Name]
              skipped := st.skipped + 1 }
  else
    let (installed, dev) := ad.IsPackageInstalled st.dev pkg.Name
    let calls := st.calls ++ [AdbCall.IsPackageInstalled pkg.Name]
    if installed.err ≠ none || !installed.ok then
      { st with dev := dev, calls := calls
                logMessages := st.logMessages ++ ["[SKIP] ".toList ++ pkg.Name]
                skipped := st.skipped + 1 }
    else
      let (ok, dev) := ad.UninstallPackage dev pkg.Name userID
      let calls := calls ++ [AdbCall.UninstallPackage pkg.Name userID]
      if ok.err ≠ none || !ok.ok then
        { st with dev := dev, calls := calls
                  logMessages := st.logMessages ++ ["[FAIL] ".toList ++ pkg.Name]
                  failed := st.failed + 1 }
      else
        { st with dev := dev, calls := calls
                  logMessages := st.logMessages ++ ["[SUCCESS] ".toList ++ pkg.Name]
                  success := st.success + 1 }

/-- The loop of `startDebloat` over the selected packages. -/
def debloatLoop {σ : Type} (ad : Adapter σ) (m : Model) (selected : List PkgRef)
    (st : BatchState σ) : BatchState σ :=
  selected.foldl
    (fun st ref => debloatBody ad m.dryRun m.device.UserID st (m.packageManager.get ref)) st

/-- What running the command returned by `startDebloat` produces. -/
structure BatchResult (σ : Type) where
  msg : Msg
  model : Model
  dev : σ
  calls : List AdbCall

/-- The command returned by `startDebloat`, run on the device state `dev`. -/
def startDebloat {σ : Type} (ad : Adapter σ) (m : Model) (dev : σ) : BatchResult σ :=
  let selected := GetSelectedPackages m.packageManager
  let st := debloatLoop ad m selected { dev := dev, logMessages := m.logMessages }
  { msg := .doneMsg st.success st.failed st.skipped
    model := { m with logMessages := st.logMessages }
    dev := st.dev
    calls := st.calls }

/-- The first `switch` of `Update`: `.inl` when the case returns from `Update`,
`.inr` when control reaches the second `switch`; `none` is a run-time panic. -/
def handleMsg (w : Bubbles) (m : Model) (msg : Msg) : Option ((Model × Cmd) ⊕ (Model × Cmd)) :=
  match msg with
  | .KeyMsg type _ =>
    match type with
    | .KeyCtrlC => some (.inl (m, .Quit))
    | .KeyEnter =>
      match m.state with
      | .StateList => some (.inr ({ m with state := .StateConfirm }, .nil))
      | .StateConfirm => some (.inl ({ m with state := .StateProgress }, .startDebloat))
      | .StateDone => some (.inl (m, .Quit))
      | _ => some (.inr (m, .nil))
    | .KeyEsc =>
      if m.state = .StateSearch then some (.inr ({ m with state := .StateList }, .nil))
      else some (.inr (m, .nil))
    | .KeyUp =>
      if m.state = .StateList then some (.inr ({ m with list := w.CursorUp m.list }, .nil))
      else some (.inr (m, .nil))
    | .KeyDown =>
      if m.state = .StateList then some (.inr ({ m with list := w.CursorDown m.list }, .nil))
      else some (.inr (m, .nil))
    | .KeySpace =>
      if m.state = .StateList then
        let idx := m.list.Index
        if idx ≥ 0 ∧ idx < (m.packages.length : Int) then
          let ref := m.packages.getD idx.toNat 0
          let m := { m with packageManager :=
            { m.packageManager with packages := flipSelected m.packageManager.packages ref } }
          let m := updateSelectedCount m
          match m.list.SetItem idx ref with
          | some l => some (.inr ({ m with list := l }, .nil))
          | none => none
        else some (.inr (m, .nil))
      else some (.inr (m, .nil))
    | .KeyF1 =>
      if m.state = .StateList then
        let m := { m with packageManager := SelectAll m.packageManager }
        some (.inr (updateSelectedCount (updateList m), .nil))
      else some (.inr (m, .nil))
    | .KeyF2 =>
      if m.state = .StateList then
        let m := { m with packageManager := DeselectAll m.packageManager }
        some (.inr (updateSelectedCount (updateList m), .nil))
      else some (.inr (m, .nil))
    | .KeyF3 =>
      if m.state = .StateList then
        let m := { m with packageManager := SelectInstalled m.packageManager }
        some (.inr (updateSelectedCount (updateList m), .nil))
      else some (.inr (m, .nil))
    | .KeyF4 =>
      if m.state = .StateList then
        let m := { m with packageManager := SelectByRiskLevel m.packageManager "SAFE".toList }
        some (.inr (updateSelectedCount (updateList m), .nil))
      else some (.inr (m, .nil))
    | .KeyF5 =>
      if m.state = .StateList then
        some (.inl ({ m with state := .StateSearch, searchInput := m.searchInput.Focus }, .Blink))
      else some (.inr (m, .nil))
    | _ =>
      -- Handle rune input for search
      if m.state = .StateSearch then
        let (input, cmd) := w.inputUpdate m.searchInput msg
        some (.inr (filterPackages w { m with searchInput := input }, cmd))
      else some (.inr (m, .nil))
  | .WindowSizeMsg Width Height =>
    some (.inr ({ m with width := Width, height := Height
                         list := (m.list.SetWidth (Width - 4)).SetHeight (Height - 10) }, .nil))
  | .tickMsg => some (.inl (m, .tickCmd))
  | .progressMsg pkg status =>
    some (.inr (addLog m (['['] ++ status ++ "] ".toList ++ pkg), .nil))
  | .doneMsg success failed skipped =>
    some (.inr ({ m with successCount := success, failCount := failed
                         skipCount := skipped, state := .StateDone }, .nil))
  | .other _ => some (.inr (m, .nil))

/-- The second `switch` of `Update`: update components based on state. -/
def updateComponents (w : Bubbles) (m : Model) (cmd : Cmd) (msg : Msg) : Model × Cmd :=
  match m.state with
  | .StateList =>
    let (l, cmd) := w.listUpdate m.list msg
    ({ m with list := l }, cmd)
  | .StateSearch =>
    let (input, cmd) := w.inputUpdate m.searchInput msg
    ({ m with searchInput := input }, cmd)
  | _ => (m, cmd)

/-- Update updates model: the model and the command returned, `none` for a
run-time panic. -/
def Update (w : Bubbles) (m : Model) (msg : Msg) : Option (Model × Cmd) :=
  match handleMsg w m msg with
  | none => none
  | some (.inl r) => some r
  | some (.inr (m, cmd)) => some (updateComponents w m cmd msg)

/-- The messages `msgs` handled by `Update` one after the other. -/
def UpdateAll (w : Bubbles) (m : Model) : List Msg → Option Model
  | [] => some m
  | msg :: rest =>
    match Update w m msg with
    | none => none
    | some (m, _) => UpdateAll w m rest

/-! ## `internal/adb/client.go` -/

/-- Go `strings.TrimPrefix`. -/
def TrimPrefix (s pre : Str) : Str := if pre.isPrefixOf s then s.drop pre.length else s

/-- Client represents an ADB client. -/
structure Client where
  adbPath : Str
  deriving DecidableEq, Repr

/-- NewClient creates a new ADB client. -/
def NewClient (adbPath : Str) : Client :=
  if adbPath = [] then { adbPath := "adb".toList } else { adbPath := adbPath }

/-- What `exec.Command(name, args...).Output()` (or `CombinedOutput()`) returns:
the bytes the command wrote and the error, if any. -/
structure CmdResult where
  output : Str := []
  err : Option Str := none
  deriving DecidableEq, Repr

/-- The operating system as the client uses it: running the command line
`name :: args` in the state `σ` (host and device) gives a result and the state
the command leaves. -/
structure Shell (σ : Type) where
  run : σ → List Str → CmdResult × σ

/-- The scanning loop shared by `ListPackages`, `ListSystemPackages` and
`ListThirdPartyPackages`: the packages named by the lines `package:<name>`. -/
def packageLines (output : Str) : List Str :=
  (ScanLines output).filterMap fun text =>
    let line := TrimSpace text
    if HasPrefix line "package:".toList then some (TrimPrefix line "package:".toList) else none

/-- ListPackages returns a list of installed packages. -/
def Client.ListPackages {σ : Type} (c : Client) (sh : Shell σ) (s : σ) :
    Except Str (List Str) × σ :=
  let r := sh.run s [c.adbPath, "shell".toList, "pm".toList, "list".toList, "packages".toList]
  match r.1.err with
  | some e => (.error ("failed to list packages: ".toList ++ e), r.2)
  | none => (.ok (packageLines r.1.output), r.2)

/-- UninstallPackage removes a package for the current user. -/
def Client.UninstallPackage {σ : Type} (c : Client) (sh : Shell σ) (s : σ) (pkg userID : Str) :
    AdbResult × σ :=
  let r := sh.run s [c.adbPath, "shell".toList, "pm".toList, "uninstall".toList,
    "--user".toList, userID, pkg]
  match r.1.err with
  | some e =>
    if Contains r.1.output "Success".toList then ({ ok := true }, r.2)
    else ({ ok := false
            err := some ("failed to uninstall ".toList ++ pkg ++ ": ".toList ++ e) }, r.2)
  | none => ({ ok := true }, r.2)

/-- IsPackageInstalled checks if a package is installed. -/
def Client.IsPackageInstalled {σ : Type} (c : Client) (sh : Shell σ) (s : σ) (pkg : Str) :
    AdbResult × σ :=
  let r := sh.run s [c.adbPath, "shell".toList, "pm".toList, "list".toList, "packages".toList, pkg]
  match r.1.err with
  | some e => ({ ok := false, err := some ("failed to check package: ".toList ++ e) }, r.2)
  | none => ({ ok := Contains r.1.output ("package:".toList ++ pkg) }, r.2)

/-- The device bridge `internal/ui/app.go` calls, realised by the client. -/
def Client.adapter {σ : Type} (c : Client) (sh : Shell σ) : Adapter σ where
  IsPackageInstalled := c.IsPackageInstalled sh
  UninstallPackage := c.UninstallPackage sh

/-! ## Wording of the specification -/

/-- The package `pkg` is listed in a command output, in the words of the
specification: some line of the output is exactly `package:` followed by
`pkg`. -/
def ListedIn (output pkg : Str) : Prop := ("package:".toList ++ pkg) ∈ ScanLines output


/-- Between two states of a package, nothing but `Selected` differs, and a
selected package stays selected. -/
def SelectionGrows (p q : Package) : Prop :=
  q = { p with Selected := q.Selected } ∧ (p.Selected = true → q.Selected = true)

/-- Case-insensitive containment, in the words of the specification: some
substring of `s` has the length of `q` and agrees with `q` rune by rune up to
case (`lower` being the case folding). -/
def ContainsIgnoreCase (lower : Char → Char) (s q : Str) : Prop :=
  ∃ u w v : Str, s = u ++ w ++ v ∧ List.Forall₂ (fun x y => lower x = lower y) w q

/-! ## Sample data -/

/-- A simulated device bridge: the state is the list of packages installed on
the device; uninstalling an absent package fails. -/
def simAdapter : Adapter (List Str) where
  IsPackageInstalled := fun d pkg => ({ ok := decide (pkg ∈ d) }, d)
  UninstallPackage := fun d pkg _ =>
    if pkg ∈ d then ({ ok := true }, d.erase pkg)
    else ({ ok := false, err := some "Failure".toList }, d)

/-- A catalog of three packages: `com.a` installed and selected, `com.b`
selected but not installed, `com.c` installed and not selected. -/
def sampleManager : Manager :=
  { packages :=
      [ { Name := "com.a".toList, Installed := true, Selected := true },
        { Name := "com.b".toList, Installed := false, Selected := true },
        { Name := "com.c".toList, Installed := true, Selected := false } ] }

/-- The application over `sampleManager`, with the given simulate-only flag. -/
def sampleModel (dryRun : Bool) : Model :=
  { NewApp sampleManager [0, 1, 2] { UserID := "0".toList } with dryRun := dryRun }

/-- The catalog of `sampleManager` loaded afresh, in another order: nothing is
selected. -/
def freshManager : Manager :=
  { packages :=
      [ { Name := "com.c".toList }, { Name := "com.a".toList }, { Name := "com.b".toList } ] }

/-- A simple terminal: the list widget ignores every message, the cursor moves
by one item, the text input appends the runes typed while it has the focus and
`Backspace` removes the last one; case folding is ASCII. -/
def simBubbles : Bubbles where
  listUpdate := fun l _ => (l, .nil)
  CursorUp := fun l => { l with index := if l.index > 0 then l.index - 1 else 0 }
  CursorDown := fun l =>
    { l with index := if l.index + 1 < (l.items.length : Int) then l.index + 1 else l.index }
  inputUpdate := fun t msg =>
    match msg with
    | .KeyMsg .KeyRunes runes => (if t.focus then { t with value := t.value ++ runes } else t, .nil)
    | .KeyMsg .KeyBackspace _ => (if t.focus then { t with value := t.value.dropLast } else t, .nil)
    | _ => (t, .nil)
  lower := asciiLower

/-- A catalog of two packages, none selected, and the application over it. -/
def twoPackages : Model :=
  NewApp { packages := [ { Name := "com.a".toList }, { Name := "com.b".toList } ] } [0, 1]
    { UserID := "0".toList }

/-- The state of `twoPackages` after a search for `b` has been left with `Esc`:
only `com.b` is displayed, under the cursor. -/
def filteredModel : Model :=
  { twoPackages with
    list := { items := [1], index := 0 }
    searchInput := { value := "bb".toList, focus := true }
    state := .StateList }

/-- The application of `sampleModel` in the Confirming state. -/
def confirmModel : Model := { sampleModel false with state := .StateConfirm }

/-- A catalog with the packages `com.b` and `com.bb`, and the application over
it. -/
def searchApp : Model :=
  NewApp { packages := [ { Name := "com.b".toList }, { Name := "com.bb".toList } ] } [0, 1]
    { UserID := "0".toList }

/-- The state of `searchApp` once `F5` has opened the search: the text input
has the focus and is empty. -/
def searchModel : Model :=
  { searchApp with state := .StateSearch, searchInput := { value := [], focus := true } }

/-- The lines `package:<name>` that `pm list packages` prints for `names`. -/
def pmLines (names : List Str) : Str :=
  names.flatMap fun n => "package:".toList ++ n ++ ['\n']

/-- A simulated host and device: the state is the list of packages installed
on the device. `pm list packages` prints them all, `pm list packages FILTER`
those whose name contains `FILTER`, `pm uninstall --user U PKG` removes `PKG`
when it is installed; any other command line fails. -/
def simShell : Shell (List Str) where
  run := fun d args =>
    match args.drop 1 |>.map String.mk with
    | ["shell", "pm", "list", "packages"] => ({ output := pmLines d }, d)
    | ["shell", "pm", "list", "packages", f] =>
      ({ output := pmLines (d.filter fun n => Contains n f.toList) }, d)
    | ["shell", "pm", "uninstall", "--user", _, pkg] =>
      if pkg.toList ∈ d then ({ output := "Success\n".toList }, d.erase pkg.toList)
      else ({ output := "Failure [not installed]\n".toList, err := some "exit status 1".toList }, d)
    | _ => ({ err := some "exit status 1".toList }, d)

/-! # Properties -/

/-! ## White space and fields -/

theorem dropWhile_of_head (p : Char → Bool) (l : Str)
    (h : ∀ c, l.head? = some c → p c = false) : l.dropWhile p = l := by
  cases l with
  | nil => rfl
  | cons c cs => simp [List.dropWhile_cons, h c rfl]

theorem isSpace_hash : isSpace '#' = false := by decide

theorem isSpace_bar : isSpace '|' = false := by decide

/-- A text that neither starts nor ends with white space, between two runs of
white space, is what `TrimSpace` returns. -/
theorem TrimSpace_sandwich (a t b : Str) (ha : ∀ c ∈ a, isSpace c = true)
    (hb : ∀ c ∈ b, isSpace c = true) (hhead : ∀ c, t.head? = some c → isSpace c = false)
    (hlast : ∀ c, t.getLast? = some c → isSpace c = false) :
    TrimSpace (a ++ t ++ b) = t := by
  unfold TrimSpace TrimLeft TrimRight
  rw [List.append_assoc, List.dropWhile_append_of_pos ha]
  cases t with
  | nil =>
    have hb' : b.dropWhile isSpace = [] := List.dropWhile_eq_nil_iff.mpr hb
    simp [hb']
  | cons c cs =>
    have h1 : ((c :: cs) ++ b).dropWhile isSpace = (c :: cs) ++ b := by
      apply dropWhile_of_head
      intro d hd
      exact hhead d (by simpa using hd)
    rw [h1, List.reverse_append]
    have hb' : ∀ x ∈ b.reverse, isSpace x = true := fun x hx => hb x (List.mem_reverse.mp hx)
    rw [List.dropWhile_append_of_pos hb']
    rw [dropWhile_of_head]
    · simp
    · intro d hd
      rw [List.head?_reverse] at hd
      exact hlast d hd

/-- The input of `TrimSpace` is its result between two runs of white space. -/
theorem TrimSpace_decomp (s : Str) :
    ∃ a b : Str, (∀ c ∈ a, isSpace c = true) ∧ (∀ c ∈ b, isSpace c = true) ∧
      s = a ++ TrimSpace s ++ b := by
  refine ⟨s.takeWhile isSpace, ((s.dropWhile isSpace).reverse.takeWhile isSpace).reverse,
    fun c hc => List.mem_takeWhile_imp hc,
    fun c hc => List.mem_takeWhile_imp (List.mem_reverse.mp hc), ?_⟩
  unfold TrimSpace TrimLeft TrimRight
  rw [List.append_assoc, ← List.reverse_append, List.takeWhile_append_dropWhile,
    List.reverse_reverse, List.takeWhile_append_dropWhile]

theorem TrimSpace_last (s : Str) (c : Char) (h : (TrimSpace s).getLast? = some c) :
    isSpace c = false := by
  unfold TrimSpace TrimLeft TrimRight at h
  rw [List.getLast?_reverse] at h
  have h2 := List.head?_dropWhile_not isSpace (s.dropWhile isSpace).reverse
  rw [h] at h2
  simpa using h2

theorem TrimSpace_head (s : Str) (c : Char) (h : (TrimSpace s).head? = some c) :
    isSpace c = false := by
  obtain ⟨w, hw⟩ : ∃ w, s.dropWhile isSpace = TrimSpace s ++ w := by
    refine ⟨((s.dropWhile isSpace).reverse.takeWhile isSpace).reverse, ?_⟩
    unfold TrimSpace TrimLeft TrimRight
    rw [← List.reverse_append, List.takeWhile_append_dropWhile, List.reverse_reverse]
  have h2 := List.head?_dropWhile_not isSpace s
  rw [hw] at h2
  cases ht : TrimSpace s with
  | nil => rw [ht] at h; simp at h
  | cons d ds =>
    rw [ht] at h h2
    simp only [List.head?_cons, Option.some.injEq] at h
    subst h
    simpa using h2

theorem TrimSpace_append_left (a x : Str) (ha : ∀ c ∈ a, isSpace c = true) :
    TrimSpace (a ++ x) = TrimSpace x := by
  obtain ⟨a', b', ha', hb', hx⟩ := TrimSpace_decomp x
  have h : a ++ x = (a ++ a') ++ TrimSpace x ++ b' := by
    conv_lhs => rw [hx]
    simp [List.append_assoc]
  rw [h]
  apply TrimSpace_sandwich _ _ _ _ hb' (TrimSpace_head x) (TrimSpace_last x)
  intro c hc
  rcases List.mem_append.mp hc with hc | hc
  · exact ha c hc
  · exact ha' c hc

theorem TrimSpace_append_right (x b : Str) (hb : ∀ c ∈ b, isSpace c = true) :
    TrimSpace (x ++ b) = TrimSpace x := by
  obtain ⟨a', b', ha', hb', hx⟩ := TrimSpace_decomp x
  have h : x ++ b = a' ++ TrimSpace x ++ (b' ++ b) := by
    conv_lhs => rw [hx]
    simp [List.append_assoc]
  rw [h]
  apply TrimSpace_sandwich _ _ _ ha' _ (TrimSpace_head x) (TrimSpace_last x)
  intro c hc
  rcases List.mem_append.mp hc with hc | hc
  · exact hb' c hc
  · exact hb c hc

theorem TrimSpace_idem (s : Str) : TrimSpace (TrimSpace s) = TrimSpace s := by
  have h := TrimSpace_sandwich [] (TrimSpace s) [] (by simp) (by simp)
    (TrimSpace_head s) (TrimSpace_last s)
  simpa using h

theorem TrimSpace_nil : TrimSpace [] = [] := rfl

/-- A rune that is not white space survives `TrimSpace`. -/
theorem mem_TrimSpace_iff (s : Str) (c : Char) (hc : isSpace c = false) :
    c ∈ TrimSpace s ↔ c ∈ s := by
  obtain ⟨a, b, ha, hb, hs⟩ := TrimSpace_decomp s
  constructor
  · intro h
    rw [hs]
    simp [h]
  · intro h
    rw [hs] at h
    rcases List.mem_append.mp h with h | h
    · rcases List.mem_append.mp h with h | h
      · rw [ha c h] at hc; cases hc
      · exact h
    · rw [hb c h] at hc; cases hc

theorem Contains_singleton (s : Str) (c : Char) : Contains s [c] = decide (c ∈ s) := by
  induction s with
  | nil => simp [Contains]
  | cons d ds ih =>
    simp only [Contains, ih, List.isPrefixOf, List.mem_cons]
    by_cases h : c = d
    · subst h; simp
    · have h' : ¬ d = c := fun e => h e.symm
      simp [h, h']

theorem Split_ne_nil (sep : Char) (s : Str) : Split sep s ≠ [] := by
  cases s with
  | nil => simp [Split]
  | cons c cs =>
    simp only [Split]
    split_ifs
    · simp
    · split <;> simp

theorem Split_of_not_mem (sep : Char) (s : Str) (h : sep ∉ s) : Split sep s = [s] := by
  induction s with
  | nil => rfl
  | cons c cs ih =>
    have hc : ¬ c = sep := fun e => h (by simp [e])
    have hcs : sep ∉ cs := fun e => h (List.mem_cons_of_mem _ e)
    simp [Split, hc, ih hcs]

/-- A separator-free text put in front of `x` goes to the first field. -/
theorem Split_append_left (sep : Char) (a x : Str) (ha : sep ∉ a) :
    ∃ f fs, Split sep x = f :: fs ∧ Split sep (a ++ x) = (a ++ f) :: fs := by
  induction a with
  | nil =>
    cases hx : Split sep x with
    | nil => exact absurd hx (Split_ne_nil sep x)
    | cons f fs => exact ⟨f, fs, rfl, by simpa using hx⟩
  | cons c cs ih =>
    have hc : ¬ c = sep := fun e => ha (by simp [e])
    have hcs : sep ∉ cs := fun e => ha (List.mem_cons_of_mem _ e)
    obtain ⟨f, fs, h1, h2⟩ := ih hcs
    exact ⟨f, fs, h1, by simp [Split, hc, h2]⟩

/-- A separator-free text put after `x` goes to the last field. -/
theorem Split_append_right (sep : Char) (x b : Str) (hb : sep ∉ b) :
    ∃ fs f, Split sep x = fs ++ [f] ∧ Split sep (x ++ b) = fs ++ [f ++ b] := by
  induction x with
  | nil => exact ⟨[], [], rfl, by simpa using Split_of_not_mem sep b hb⟩
  | cons c cs ih =>
    obtain ⟨fs, f, h1, h2⟩ := ih
    by_cases hc : c = sep
    · exact ⟨[] :: fs, f, by simp [Split, hc, h1], by simp [Split, hc, h2]⟩
    · cases fs with
      | nil => exact ⟨[], c :: f, by simp [Split, hc, h1], by simp [Split, hc, h2]⟩
      | cons g gs =>
        exact ⟨(c :: g) :: gs, f, by simp [Split, hc, h1], by simp [Split, hc, h2]⟩

/-- Trimming a text before splitting it changes no trimmed field. -/
theorem map_TrimSpace_Split (sep : Char) (hsep : isSpace sep = false) (s : Str) :
    (Split sep (TrimSpace s)).map TrimSpace = (Split sep s).map TrimSpace := by
  obtain ⟨a, b, ha, hb, hs⟩ := TrimSpace_decomp s
  have ha' : sep ∉ a := fun h => by rw [ha sep h] at hsep; cases hsep
  have hb' : sep ∉ b := fun h => by rw [hb sep h] at hsep; cases hsep
  obtain ⟨fs, f, h1, h2⟩ := Split_append_right sep (TrimSpace s) b hb'
  obtain ⟨g, gs, h3, h4⟩ := Split_append_left sep a (TrimSpace s ++ b) ha'
  have hs' : Split sep s = (a ++ g) :: gs := by
    conv_lhs => rw [hs, List.append_assoc]
    exact h4
  rw [hs', h1]
  rw [h2] at h3
  cases fs with
  | nil =>
    simp only [List.nil_append, List.cons.injEq] at h3
    obtain ⟨rfl, rfl⟩ := h3
    simp [TrimSpace_append_left _ _ ha, TrimSpace_append_right _ _ hb]
  | cons k ks =>
    simp only [List.cons_append, List.cons.injEq] at h3
    obtain ⟨rfl, rfl⟩ := h3
    simp [TrimSpace_append_left _ _ ha, TrimSpace_append_right _ _ hb]

theorem Split_length_of_mem (sep : Char) (s : Str) (h : sep ∈ s) : 2 ≤ (Split sep s).length := by
  induction s with
  | nil => simp at h
  | cons c cs ih =>
    by_cases hc : c = sep
    · have := Split_ne_nil sep cs
      cases hs : Split sep cs with
      | nil => exact absurd hs this
      | cons f fs => simp [Split, hc, hs]
    · have hcs : sep ∈ cs := by
        rcases List.mem_cons.mp h with e | e
        · exact absurd e.symm hc
        · exact e
      have := ih hcs
      cases hs : Split sep cs with
      | nil => rw [hs] at this; simp at this
      | cons f fs => rw [hs] at this; simpa [Split, hc, hs] using this

theorem SplitN_two (sep : Char) (s : Str) (h : sep ∈ s) :
    SplitN sep 2 s =
      [s.takeWhile (fun c => c != sep), (s.dropWhile (fun c => c != sep)).tail] := by
  simp [SplitN, h]

theorem getD_map_TrimSpace (l : List Str) (i : Nat) :
    (l.map TrimSpace).getD i [] = TrimSpace (l.getD i []) := by
  induction l generalizing i with
  | nil => simp [TrimSpace_nil]
  | cons x xs ih =>
    cases i with
    | zero => simp
    | succ n => simpa using ih n

theorem getD_of_length_le (l : List Str) (i : Nat) (h : l.length ≤ i) : l.getD i [] = [] := by
  simp [List.getD_eq_getElem?_getD, List.getElem?_eq_none h]

theorem takeWhile_ne_append (sep : Char) (x y : Str) (h : sep ∈ x) :
    (x ++ y).takeWhile (fun c => c != sep) = x.takeWhile (fun c => c != sep) := by
  induction x with
  | nil => simp at h
  | cons c cs ih =>
    by_cases hc : c = sep
    · simp [List.takeWhile_cons, hc]
    · have hcs : sep ∈ cs := by
        rcases List.mem_cons.mp h with e | e
        · exact absurd e.symm hc
        · exact e
      simp [List.takeWhile_cons, hc, ih hcs]

theorem dropWhile_ne_append (sep : Char) (x y : Str) (h : sep ∈ x) :
    ((x ++ y).dropWhile (fun c => c != sep)).tail =
      (x.dropWhile (fun c => c != sep)).tail ++ y := by
  induction x with
  | nil => simp at h
  | cons c cs ih =>
    by_cases hc : c = sep
    · simp [List.dropWhile_cons, hc]
    · have hcs : sep ∈ cs := by
        rcases List.mem_cons.mp h with e | e
        · exact absurd e.symm hc
        · exact e
      simp [List.dropWhile_cons, hc, ih hcs]

theorem takeWhile_ne_of_not_mem (sep : Char) (x : Str) (h : sep ∉ x) :
    x.takeWhile (fun c => c != sep) = x := by
  rw [List.takeWhile_eq_self_iff]
  intro c hc
  have : c ≠ sep := fun e => h (e ▸ hc)
  simpa using this

theorem dropWhile_ne_of_not_mem (sep : Char) (x : Str) (h : sep ∉ x) :
    x.dropWhile (fun c => c != sep) = [] := by
  rw [List.dropWhile_eq_nil_iff]
  intro c hc
  have : c ≠ sep := fun e => h (e ▸ hc)
  simpa using this

/-- The package `parseLine` builds, case by case, in terms of the trimmed line. -/
theorem parseLine_cases (text : Str) :
    parseLine text =
      if TrimSpace text = [] ∨ (TrimSpace text).head? = some '#' then none
      else if '#' ∈ TrimSpace text then
        if '|' ∈ TrimSpace (((TrimSpace text).dropWhile (fun c => c != '#')).tail) then
          some { Name := TrimSpace ((TrimSpace text).takeWhile (fun c => c != '#'))
                 Description := TrimSpace ((Split '|' (TrimSpace
                   (((TrimSpace text).dropWhile (fun c => c != '#')).tail))).getD 0 [])
                 Category := TrimSpace ((Split '|' (TrimSpace
                   (((TrimSpace text).dropWhile (fun c => c != '#')).tail))).getD 1 [])
                 RiskLevel := TrimSpace ((Split '|' (TrimSpace
                   (((TrimSpace text).dropWhile (fun c => c != '#')).tail))).getD 2 []) }
        else
          some { Name := TrimSpace ((TrimSpace text).takeWhile (fun c => c != '#'))
                 Description := TrimSpace (((TrimSpace text).dropWhile (fun c => c != '#')).tail) }
      else some { Name := TrimSpace text } := by
  unfold parseLine
  simp only [Contains_singleton]
  have hpre : ∀ l : Str, HasPrefix l ['#'] = true ↔ l.head? = some '#' := by
    intro l
    cases l with
    | nil => simp [HasPrefix, List.isPrefixOf]
    | cons c cs =>
      simp only [HasPrefix, List.isPrefixOf, List.head?_cons, Option.some.injEq, Bool.and_true,
        beq_iff_eq]
      exact eq_comm
  by_cases h0 : TrimSpace text = [] ∨ (TrimSpace text).head? = some '#'
  · rw [if_pos h0]
    rcases h0 with h0 | h0
    · simp [h0]
    · simp [(hpre _).mpr h0]
  · rw [if_neg h0]
    push_neg at h0
    have hp : HasPrefix (TrimSpace text) ['#'] = false := by
      cases hh : HasPrefix (TrimSpace text) ['#'] with
      | false => rfl
      | true => exact absurd ((hpre _).mp hh) h0.2
    simp only [h0.1, hp, decide_False, Bool.or_false, Bool.false_eq_true, if_false]
    by_cases h1 : '#' ∈ TrimSpace text
    · simp only [h1, decide_True, if_true, SplitN_two _ _ h1, List.getD_cons_zero,
        List.getD_cons_succ]
      by_cases h2 : '|' ∈ TrimSpace (((TrimSpace text).dropWhile (fun c => c != '#')).tail)
      · have hlen := Split_length_of_mem _ _ h2
        simp only [h2, decide_True, if_true]
        by_cases h3 : 3 ≤ (Split '|' (TrimSpace
            (((TrimSpace text).dropWhile (fun c => c != '#')).tail))).length
        · simp only [h3, show 1 ≤ _ from le_trans (by decide) hlen, hlen, ge_iff_le, if_true]
        · have h3' := getD_of_length_le _ 2 (Nat.le_of_lt_succ (Nat.lt_of_not_le h3))
          simp only [h3, show 1 ≤ _ from le_trans (by decide) hlen, hlen, ge_iff_le, if_true,
            if_false, h3', TrimSpace_nil]
      · simp only [h2, decide_False, Bool.false_eq_true, if_false]
    · simp [h1]

/-! ## Pointers into the catalog -/

theorem refsWhere_deref (p : Package → Bool) (d : Package) (pkgs pre : List Package) :
    (refsWhere p pkgs pre.length).map (fun r => (pre ++ pkgs).getD r d) = pkgs.filter p := by
  induction pkgs generalizing pre with
  | nil => simp [refsWhere]
  | cons pkg rest ih =>
    have h := ih (pre ++ [pkg])
    simp only [List.length_append, List.length_singleton, List.append_assoc,
      List.singleton_append] at h
    have hd : (pre ++ pkg :: rest).getD pre.length d = pkg := by
      rw [List.getD_eq_getElem?_getD, List.getElem?_append_right (le_refl _)]
      simp
    by_cases hp : p pkg = true
    · simp only [refsWhere, hp, if_true, List.map_cons, h, hd, List.filter_cons_of_pos]
    · simp only [refsWhere, hp, h, List.filter_cons_of_neg, Bool.false_eq_true, if_false,
        not_false_eq_true]

theorem GetSelectedPackages_deref (m : Manager) :
    (GetSelectedPackages m).map m.get = m.packages.filter (fun pkg => pkg.Selected) := by
  have h := refsWhere_deref (fun pkg => pkg.Selected) default m.packages []
  simp only [List.length_nil, List.nil_append] at h
  exact h

theorem GetSelectedCount_eq_length_filter (m : Manager) :
    GetSelectedCount m = (m.packages.filter (fun pkg => pkg.Selected)).length := by
  have h : ∀ (l : List Package) (n : Nat),
      l.foldl (fun count pkg => if pkg.Selected then count + 1 else count) n =
        n + (l.filter (fun pkg => pkg.Selected)).length := by
    intro l
    induction l with
    | nil => simp
    | cons pkg rest ih =>
      intro n
      by_cases hs : pkg.Selected = true
      · simp [List.foldl_cons, hs, ih]; omega
      · simp [List.foldl_cons, hs, ih]
  simpa [GetSelectedCount] using h m.packages 0

/-! ## The batch of `startDebloat` -/

/-- The loop over pointers is the loop over the packages they point to. -/
theorem debloatLoop_eq_foldl {σ : Type} (ad : Adapter σ) (m : Model) (refs : List PkgRef)
    (st : BatchState σ) :
    debloatLoop ad m refs st =
      (refs.map m.packageManager.get).foldl (debloatBody ad m.dryRun m.device.UserID) st := by
  simp [debloatLoop, List.foldl_map]

theorem debloatLoop_append {σ : Type} (ad : Adapter σ) (m : Model) (xs ys : List PkgRef)
    (st : BatchState σ) :
    debloatLoop ad m (xs ++ ys) st = debloatLoop ad m ys (debloatLoop ad m xs st) := by
  simp [debloatLoop, List.foldl_append]

theorem dryRun_foldl {σ : Type} (ad : Adapter σ) (userID : Str) (pkgs : List Package)
    (st : BatchState σ) :
    pkgs.foldl (debloatBody ad true userID) st =
      { st with logMessages := st.logMessages ++ pkgs.map (fun pkg => "[DRY-RUN] ".toList ++ pkg.Name)
                success := st.success + pkgs.length } := by
  induction pkgs generalizing st with
  | nil => simp
  | cons pkg rest ih =>
    simp only [List.foldl_cons, ih, debloatBody, if_true, List.map_cons, List.length_cons,
      List.append_assoc, List.singleton_append]
    congr 1
    omega

/-- C1. With the simulate-only flag set, the batch makes no call to the device
bridge and leaves the device as it was, reports success = number of selected
packages, failed = 0, skipped = 0, and appends one `[DRY-RUN]` line per selected
package, in catalog order. -/
theorem C1_dry_run_no_device_interaction {σ : Type} (ad : Adapter σ) (m : Model) (dev : σ)
    (h : m.dryRun = true) :
    (startDebloat ad m dev).calls = [] ∧
    (startDebloat ad m dev).dev = dev ∧
    (startDebloat ad m dev).msg =
      .doneMsg (m.packageManager.packages.filter (fun pkg => pkg.Selected)).length 0 0 ∧
    (startDebloat ad m dev).model.logMessages =
      m.logMessages ++ (m.packageManager.packages.filter (fun pkg => pkg.Selected)).map
        (fun pkg => "[DRY-RUN] ".toList ++ pkg.Name) := by
  simp [startDebloat, debloatLoop_eq_foldl, h, dryRun_foldl, GetSelectedPackages_deref]

theorem debloatBody_total {σ : Type} (ad : Adapter σ) (dryRun : Bool) (userID : Str)
    (st : BatchState σ) (pkg : Package) :
    (debloatBody ad dryRun userID st pkg).success + (debloatBody ad dryRun userID st pkg).failed +
        (debloatBody ad dryRun userID st pkg).skipped =
      st.success + st.failed + st.skipped + 1 := by
  unfold debloatBody
  dsimp only
  split_ifs <;> dsimp only <;> omega

theorem debloat_foldl_total {σ : Type} (ad : Adapter σ) (dryRun : Bool) (userID : Str)
    (pkgs : List Package) (st : BatchState σ) :
    (pkgs.foldl (debloatBody ad dryRun userID) st).success +
        (pkgs.foldl (debloatBody ad dryRun userID) st).failed +
        (pkgs.foldl (debloatBody ad dryRun userID) st).skipped =
      st.success + st.failed + st.skipped + pkgs.length := by
  induction pkgs generalizing st with
  | nil => simp
  | cons pkg rest ih =>
    rw [List.foldl_cons, ih, debloatBody_total, List.length_cons]
    omega

/-- C3. Whatever the catalog, the simulate-only flag and the device bridge do,
the counters of the `doneMsg` add up to the number of packages selected when
the batch starts. -/
theorem C3_counters_sum_to_selected {σ : Type} (ad : Adapter σ) (m : Model) (dev : σ) :
    ∃ success failed skipped : Nat,
      (startDebloat ad m dev).msg = .doneMsg success failed skipped ∧
      success + failed + skipped = (GetSelectedPackages m.packageManager).length ∧
      success + failed + skipped = GetSelectedCount m.packageManager := by
  refine ⟨_, _, _, rfl, ?_, ?_⟩
  · rw [debloatLoop_eq_foldl, debloat_foldl_total]
    simp
  · rw [debloatLoop_eq_foldl, debloat_foldl_total, GetSelectedCount_eq_length_filter,
      ← GetSelectedPackages_deref]
    simp

/-- Witness of C1 on the sample catalog. -/
theorem C1_dry_run_no_device_interaction_witness :
    (startDebloat simAdapter (sampleModel true) ["com.a".toList]).calls = [] ∧
    (startDebloat simAdapter (sampleModel true) ["com.a".toList]).dev = ["com.a".toList] ∧
    (startDebloat simAdapter (sampleModel true) ["com.a".toList]).msg = .doneMsg 2 0 0 ∧
    (startDebloat simAdapter (sampleModel true) ["com.a".toList]).model.logMessages =
      ["[DRY-RUN] com.a".toList, "[DRY-RUN] com.b".toList] :=
  C1_dry_run_no_device_interaction simAdapter (sampleModel true) ["com.a".toList] rfl

theorem debloat_foldl_log {σ : Type} (ad : Adapter σ) (userID : Str)
    (pkgs : List Package) (st : BatchState σ) :
    ∃ tags : List Str, tags.length = pkgs.length ∧
      (∀ t ∈ tags, t = "[SKIP] ".toList ∨ t = "[FAIL] ".toList ∨ t = "[SUCCESS] ".toList) ∧
      (pkgs.foldl (debloatBody ad false userID) st).logMessages =
        st.logMessages ++ List.zipWith (fun t pkg => t ++ pkg.Name) tags pkgs := by
  induction pkgs generalizing st with
  | nil => exact ⟨[], rfl, by simp, by simp⟩
  | cons pkg rest ih =>
    obtain ⟨tags, hlen, htag, hlog⟩ := ih (debloatBody ad false userID st pkg)
    have hstep : ∃ t : Str,
        (t = "[SKIP] ".toList ∨ t = "[FAIL] ".toList ∨ t = "[SUCCESS] ".toList) ∧
        (debloatBody ad false userID st pkg).logMessages = st.logMessages ++ [t ++ pkg.Name] := by
      simp only [debloatBody, Bool.false_eq_true, if_false]
      split_ifs
      · exact ⟨_, Or.inl rfl, rfl⟩
      · exact ⟨_, Or.inl rfl, rfl⟩
      · exact ⟨_, Or.inr (Or.inl rfl), rfl⟩
      · exact ⟨_, Or.inr (Or.inr rfl), rfl⟩
    obtain ⟨t, ht, hl⟩ := hstep
    refine ⟨t :: tags, by simp [hlen], ?_, ?_⟩
    · intro u hu
      rcases List.mem_cons.mp hu with rfl | hu
      · exact ht
      · exact htag u hu
    · rw [List.foldl_cons, hlog, hl]
      simp

/-- C2. With the simulate-only flag unset, when the turn of a selected package
comes (after the selected packages `pre` before it in catalog order): it is
skipped without any call if its cached `Installed` flag is false; skipped after
the `IsPackageInstalled` call alone if that call returns an error or false;
failed (`[FAIL]` line) if `UninstallPackage` returns an error or false; success
(`[SUCCESS]` line) otherwise. The batch then goes on with the packages `post`
after it, and the log receives exactly one line per selected package. -/
theorem C2_batch_outcomes {σ : Type} (ad : Adapter σ) (m : Model) (dev : σ)
    (h : m.dryRun = false) (pre post : List PkgRef) (ref : PkgRef)
    (hsel : GetSelectedPackages m.packageManager = pre ++ ref :: post) :
    let pkg := m.packageManager.get ref
    let st := debloatLoop ad m pre { dev := dev, logMessages := m.logMessages }
    let st' := debloatLoop ad m (pre ++ [ref]) { dev := dev, logMessages := m.logMessages }
    let chk := ad.IsPackageInstalled st.dev pkg.Name
    let un := ad.UninstallPackage chk.2 pkg.Name m.device.UserID
    (pkg.Installed = false →
      st' = { st with logMessages := st.logMessages ++ ["[SKIP] ".toList ++ pkg.Name]
                      skipped := st.skipped + 1 }) ∧
    (pkg.Installed = true → (chk.1.err ≠ none ∨ chk.1.ok = false) →
      st' = { st with dev := chk.2
                      calls := st.calls ++ [AdbCall.IsPackageInstalled pkg.Name]
                      logMessages := st.logMessages ++ ["[SKIP] ".toList ++ pkg.Name]
                      skipped := st.skipped + 1 }) ∧
    (pkg.Installed = true → chk.1.err = none → chk.1.ok = true →
        (un.1.err ≠ none ∨ un.1.ok = false) →
      st' = { st with dev := un.2
                      calls := st.calls ++ [AdbCall.IsPackageInstalled pkg.Name,
                        AdbCall.UninstallPackage pkg.Name m.device.UserID]
                      logMessages := st.logMessages ++ ["[FAIL] ".toList ++ pkg.Name]
                      failed := st.failed + 1 }) ∧
    (pkg.Installed = true → chk.1.err = none → chk.1.ok = true →
        un.1.err = none → un.1.ok = true →
      st' = { st with dev := un.2
                      calls := st.calls ++ [AdbCall.IsPackageInstalled pkg.Name,
                        AdbCall.UninstallPackage pkg.Name m.device.UserID]
                      logMessages := st.logMessages ++ ["[SUCCESS] ".toList ++ pkg.Name]
                      success := st.success + 1 }) ∧
    ((startDebloat ad m dev).msg =
        .doneMsg (debloatLoop ad m post st').success (debloatLoop ad m post st').failed
          (debloatLoop ad m post st').skipped ∧
      (startDebloat ad m dev).model.logMessages = (debloatLoop ad m post st').logMessages ∧
      (startDebloat ad m dev).calls = (debloatLoop ad m post st').calls ∧
      (startDebloat ad m dev).dev = (debloatLoop ad m post st').dev) ∧
    ∃ tags : List Str, tags.length = (pre ++ ref :: post).length ∧
      (∀ t ∈ tags, t = "[SKIP] ".toList ∨ t = "[FAIL] ".toList ∨ t = "[SUCCESS] ".toList) ∧
      (startDebloat ad m dev).model.logMessages = m.logMessages ++
        List.zipWith (fun t r => t ++ (m.packageManager.get r).Name) tags (pre ++ ref :: post) := by
  intro pkg st st' chk un
  have hst' : st' = debloatBody ad false m.device.UserID st pkg := by
    simp only [st', st, pkg, debloatLoop_append]
    simp [debloatLoop, h]
  have hfin : debloatLoop ad m (pre ++ ref :: post) { dev := dev, logMessages := m.logMessages } =
      debloatLoop ad m post st' := by
    have : pre ++ ref :: post = (pre ++ [ref]) ++ post := by simp
    rw [this, debloatLoop_append]
  refine ⟨?_, ?_, ?_, ?_, ?_, ?_⟩
  · intro hi
    rw [hst']
    simp [debloatBody, hi]
  · intro hi hc
    rw [hst']
    have hc' : (decide (chk.1.err ≠ none) || !chk.1.ok) = true := by
      rcases hc with hc | hc
      · simp [hc]
      · simp [hc]
    simp only [debloatBody, hi, Bool.false_eq_true, if_false, Bool.not_true]
    simp only [chk] at hc'
    rw [if_pos hc']
  · intro hi he ho hu
    rw [hst']
    have hc' : ¬ (decide (chk.1.err ≠ none) || !chk.1.ok) = true := by simp [he, ho]
    have hu' : (decide (un.1.err ≠ none) || !un.1.ok) = true := by
      rcases hu with hu | hu
      · simp [hu]
      · simp [hu]
    simp only [debloatBody, hi, Bool.false_eq_true, if_false, Bool.not_true]
    simp only [chk] at hc'
    simp only [un, chk] at hu'
    rw [if_neg hc', if_pos hu']
    simp
  · intro hi he ho hue huo
    rw [hst']
    have hc' : ¬ (decide (chk.1.err ≠ none) || !chk.1.ok) = true := by simp [he, ho]
    have hu' : ¬ (decide (un.1.err ≠ none) || !un.1.ok) = true := by simp [hue, huo]
    simp only [debloatBody, hi, Bool.false_eq_true, if_false, Bool.not_true]
    simp only [chk] at hc'
    simp only [un, chk] at hu'
    rw [if_neg hc', if_neg hu']
    simp
  · simp only [startDebloat, hsel, hfin, and_self]
  · obtain ⟨tags, hlen, htag, hlog⟩ := debloat_foldl_log ad m.device.UserID
      ((pre ++ ref :: post).map m.packageManager.get) { dev := dev, logMessages := m.logMessages }
    refine ⟨tags, by simpa using hlen, htag, ?_⟩
    simp only [startDebloat, hsel, debloatLoop_eq_foldl, h, hlog]
    congr 1
    rw [List.zipWith_map_right]

/-- Witness of C2 on the sample catalog: `com.a`, installed and present on the
device, is uninstalled with success; the batch then goes on with `com.b`. -/
theorem C2_batch_outcomes_witness :
    (sampleModel false).dryRun = false ∧
    GetSelectedPackages (sampleModel false).packageManager = [] ++ 0 :: [1] ∧
    debloatLoop simAdapter (sampleModel false) ([] ++ [0])
        { dev := ["com.a".toList], logMessages := [] } =
      { dev := []
        calls := [AdbCall.IsPackageInstalled "com.a".toList,
                  AdbCall.UninstallPackage "com.a".toList "0".toList]
        logMessages := ["[SUCCESS] com.a".toList]
        success := 1, failed := 0, skipped := 0 } ∧
    (startDebloat simAdapter (sampleModel false) ["com.a".toList]).msg = .doneMsg 1 0 1 :=
  ⟨rfl, rfl,
    (C2_batch_outcomes simAdapter (sampleModel false) ["com.a".toList] rfl [] [1] 0 rfl).2.2.2.1
      rfl rfl rfl rfl rfl,
    (C2_batch_outcomes simAdapter (sampleModel false) ["com.a".toList] rfl [] [1] 0 rfl).2.2.2.2.1.1⟩

/-! ## Manifest parsing -/

theorem parseLine_scenario :
    parseLine "com.foo.bar # Bloatware app | Bloat | SAFE".toList =
      some { Name := "com.foo.bar".toList, Description := "Bloatware app".toList,
             Category := "Bloat".toList, RiskLevel := "SAFE".toList,
             Installed := false, Selected := false } := by
  decide

/-- The trimmed `i`-th field of a text is the trimmed `i`-th field of the
trimmed text. -/
theorem TrimSpace_field (s : Str) (i : Nat) :
    TrimSpace ((Split '|' (TrimSpace s)).getD i []) = TrimSpace ((Split '|' s).getD i []) := by
  rw [← getD_map_TrimSpace, ← getD_map_TrimSpace, map_TrimSpace_Split '|' isSpace_bar]

/-- C4. The package produced for a manifest line that is not skipped: the name
is the trimmed text before the first `#` (the whole trimmed line without `#`);
without `|` after the first `#` the description is that text, trimmed, and
category and risk level are empty; with `|`, description, category and risk
level are the trimmed first, second and third `|`-separated fields (a missing
third field is empty); `Installed` and `Selected` are false. The line
`com.foo.bar # Bloatware app | Bloat | SAFE` is an instance. -/
theorem C4_manifest_line_fields (text : Str) (pkg : Package) (h : parseLine text = some pkg) :
    pkg.Name = TrimSpace (text.takeWhile (fun c => c != '#')) ∧
    ('#' ∉ text → pkg.Name = TrimSpace text) ∧
    ('|' ∉ (text.dropWhile (fun c => c != '#')).tail →
      pkg.Description = TrimSpace (text.dropWhile (fun c => c != '#')).tail ∧
      pkg.Category = [] ∧ pkg.RiskLevel = []) ∧
    ('|' ∈ (text.dropWhile (fun c => c != '#')).tail →
      pkg.Description =
        TrimSpace ((Split '|' (text.dropWhile (fun c => c != '#')).tail).getD 0 []) ∧
      pkg.Category =
        TrimSpace ((Split '|' (text.dropWhile (fun c => c != '#')).tail).getD 1 []) ∧
      pkg.RiskLevel =
        TrimSpace ((Split '|' (text.dropWhile (fun c => c != '#')).tail).getD 2 [])) ∧
    pkg.Installed = false ∧ pkg.Selected = false ∧
    parseLine "com.foo.bar # Bloatware app | Bloat | SAFE".toList =
      some { Name := "com.foo.bar".toList, Description := "Bloatware app".toList,
             Category := "Bloat".toList, RiskLevel := "SAFE".toList,
             Installed := false, Selected := false } := by
  obtain ⟨a, b, ha, hb, hs⟩ := TrimSpace_decomp text
  have hmem : '#' ∈ TrimSpace text ↔ '#' ∈ text := mem_TrimSpace_iff text '#' isSpace_hash
  have hname : '#' ∉ text → TrimSpace (text.takeWhile (fun c => c != '#')) = TrimSpace text := by
    intro hn
    rw [takeWhile_ne_of_not_mem _ _ hn]
  have hafter0 : '#' ∉ text → (text.dropWhile (fun c => c != '#')).tail = [] := by
    intro hn
    rw [dropWhile_ne_of_not_mem _ _ hn]
    rfl
  have ha' : ∀ c ∈ a, (fun c => c != '#') c = true := by
    intro c hc
    have : c ≠ '#' := fun e => by
      have := ha c hc
      rw [e, isSpace_hash] at this
      cases this
    simpa using this
  have hbefore : '#' ∈ TrimSpace text →
      TrimSpace (text.takeWhile (fun c => c != '#')) =
        TrimSpace ((TrimSpace text).takeWhile (fun c => c != '#')) := by
    intro hin
    conv_lhs => rw [hs, List.append_assoc, List.takeWhile_append_of_pos ha',
      takeWhile_ne_append _ _ _ hin]
    exact TrimSpace_append_left _ _ ha
  have hafter : '#' ∈ TrimSpace text →
      TrimSpace (text.dropWhile (fun c => c != '#')).tail =
        TrimSpace ((TrimSpace text).dropWhile (fun c => c != '#')).tail := by
    intro hin
    conv_lhs => rw [hs, List.append_assoc, List.dropWhile_append_of_pos ha',
      dropWhile_ne_append _ _ _ hin]
    exact TrimSpace_append_right _ _ hb
  have hbar : ∀ s : Str, '|' ∈ TrimSpace s ↔ '|' ∈ s := fun s => mem_TrimSpace_iff s '|' isSpace_bar
  rw [parseLine_cases] at h
  split_ifs at h with h0 h1 h2
  · -- with `#` and `|`
    simp only [Option.some.injEq] at h
    subst h
    have h2' : '|' ∈ (text.dropWhile (fun c => c != '#')).tail :=
      (hbar _).mp (by rw [hafter h1]; exact h2)
    refine ⟨(hbefore h1).symm, fun hn => absurd (hmem.mp h1) hn, fun hn => absurd h2' hn,
      fun _ => ⟨?_, ?_, ?_⟩, rfl, rfl, parseLine_scenario⟩
    · show TrimSpace ((Split '|' (TrimSpace _)).getD 0 []) = _
      rw [← hafter h1, TrimSpace_field]
    · show TrimSpace ((Split '|' (TrimSpace _)).getD 1 []) = _
      rw [← hafter h1, TrimSpace_field]
    · show TrimSpace ((Split '|' (TrimSpace _)).getD 2 []) = _
      rw [← hafter h1, TrimSpace_field]
  · -- with `#`, without `|`
    simp only [Option.some.injEq] at h
    subst h
    have h2' : '|' ∉ (text.dropWhile (fun c => c != '#')).tail := fun hin =>
      h2 (by rw [← hafter h1]; exact (hbar _).mpr hin)
    exact ⟨(hbefore h1).symm, fun hn => absurd (hmem.mp h1) hn,
      fun _ => ⟨(hafter h1).symm, rfl, rfl⟩, fun hin => absurd hin h2', rfl, rfl, parseLine_scenario⟩
  · -- without `#`
    simp only [Option.some.injEq] at h
    subst h
    have hn : '#' ∉ text := fun hin => h1 (hmem.mpr hin)
    refine ⟨(hname hn).symm, fun _ => rfl, fun _ => ⟨?_, rfl, rfl⟩, fun hin => ?_, rfl, rfl,
      parseLine_scenario⟩
    · rw [hafter0 hn]; rfl
    · rw [hafter0 hn] at hin
      simp at hin

/-- Witness of C4 on the line of the scenario. -/
theorem C4_manifest_line_fields_witness :
    parseLine "com.foo.bar # Bloatware app | Bloat | SAFE".toList =
      some { Name := "com.foo.bar".toList, Description := "Bloatware app".toList,
             Category := "Bloat".toList, RiskLevel := "SAFE".toList } ∧
    "com.foo.bar".toList =
      TrimSpace ("com.foo.bar # Bloatware app | Bloat | SAFE".toList.takeWhile
        (fun c => c != '#')) :=
  ⟨parseLine_scenario, (C4_manifest_line_fields _ _ parseLine_scenario).1⟩

theorem TrimSpace_eq_nil_iff (text : Str) :
    TrimSpace text = [] ↔ ∀ c ∈ text, isSpace c = true := by
  constructor
  · intro h
    obtain ⟨a, b, ha, hb, hs⟩ := TrimSpace_decomp text
    rw [h] at hs
    intro c hc
    rw [hs] at hc
    simp only [List.append_nil, List.mem_append] at hc
    rcases hc with hc | hc
    · exact ha c hc
    · exact hb c hc
  · intro h
    have := TrimSpace_sandwich text [] [] h (by simp) (by simp) (by simp)
    simpa using this

theorem parseLine_eq_none_iff (text : Str) :
    parseLine text = none ↔ (TrimSpace text = [] ∨ (TrimSpace text).head? = some '#') := by
  rw [parseLine_cases]
  split_ifs with h0 h1 h2 <;> simp [h0]

/-- C5, counterexample: the line ` #x` is not blank and its first character is
a space, yet `LoadPackages` skips it. -/
theorem C5_counterexample :
    (LoadPackages NewManager (.ok { tokens := [" #x".toList] })).1 = .ok [] ∧
    parseLine " #x".toList = none ∧
    ¬ ((∀ c ∈ " #x".toList, isSpace c = true) ∨ " #x".toList.head? = some '#') :=
  ⟨rfl, by decide, by decide⟩

/-- C5, amended. When the file opens and the scanner reports no read error,
`LoadPackages` succeeds, whatever the lines say, and returns (and stores) exactly
one package per line whose trimmed text is neither empty nor begins with `#`,
in manifest order, each being the parse of its line; a line is skipped if and
only if its trimmed text is empty (the line is blank) or begins with `#`. -/
theorem C5_load_packages (m : Manager) (scanner : Scanner) (h : scanner.err = none) :
    ∃ pkgs : List Package,
      LoadPackages m (.ok scanner) = (.ok pkgs, { m with packages := pkgs }) ∧
      pkgs.map some =
        (scanner.tokens.filter (fun text =>
          !decide (TrimSpace text = [] ∨ (TrimSpace text).head? = some '#'))).map parseLine ∧
      (∀ text, parseLine text = none ↔
        (TrimSpace text = [] ∨ (TrimSpace text).head? = some '#')) ∧
      (∀ text, TrimSpace text = [] ↔ ∀ c ∈ text, isSpace c = true) := by
  refine ⟨scanner.tokens.filterMap parseLine, ?_, ?_, parseLine_eq_none_iff, TrimSpace_eq_nil_iff⟩
  · simp [LoadPackages, h]
  · induction scanner.tokens with
    | nil => rfl
    | cons t ts ih =>
      cases hp : parseLine t with
      | none =>
        have := (parseLine_eq_none_iff t).mp hp
        simp only [List.filterMap_cons, hp, ih, this, decide_True, Bool.not_true,
          Bool.false_eq_true, not_false_eq_true, List.filter_cons_of_neg]
      | some pkg =>
        have : ¬ (TrimSpace t = [] ∨ (TrimSpace t).head? = some '#') := fun hn => by
          rw [(parseLine_eq_none_iff t).mpr hn] at hp
          cases hp
        simp only [List.filterMap_cons, hp, List.map_cons, ih, this, decide_False, Bool.not_false,
          List.filter_cons_of_pos]

/-- Witness of C5: a manifest with a comment, an indented comment, a blank line
and a repeated name. -/
theorem C5_load_packages_witness :
    ∃ pkgs : List Package,
      LoadPackages NewManager (.ok { tokens := ["# head".toList, "com.a".toList, "  # x".toList,
        "  ".toList, "com.a # twice".toList] }) =
        (.ok pkgs, { NewManager with packages := pkgs }) ∧
      pkgs.map some =
        (["# head".toList, "com.a".toList, "  # x".toList, "  ".toList,
          "com.a # twice".toList].filter (fun text =>
          !decide (TrimSpace text = [] ∨ (TrimSpace text).head? = some '#'))).map parseLine ∧
      (∀ text, parseLine text = none ↔
        (TrimSpace text = [] ∨ (TrimSpace text).head? = some '#')) ∧
      (∀ text, TrimSpace text = [] ↔ ∀ c ∈ text, isSpace c = true) :=
  C5_load_packages NewManager { tokens := ["# head".toList, "com.a".toList, "  # x".toList,
    "  ".toList, "com.a # twice".toList] } rfl

/-! ## Search -/

theorem Contains_iff_occurs (s q : Str) : Contains s q = true ↔ q <:+: s := by
  induction s with
  | nil => simp [Contains]
  | cons c cs ih =>
    rw [List.infix_cons_iff, ← ih]
    simp [Contains]

/-- The test of `SearchPackages` on lower-cased texts is case-insensitive
containment in the sense of the specification. -/
theorem Contains_ToLower_iff (lower : Char → Char) (s q : Str) :
    Contains (ToLower lower s) (ToLower lower q) = true ↔ ContainsIgnoreCase lower s q := by
  have hfold : ∀ w : Str, List.Forall₂ (fun x y => lower x = lower y) w q ↔
      w.map lower = q.map lower := by
    intro w
    rw [← List.forall₂_map_right_iff (R := fun x y => lower x = y),
      ← List.forall₂_map_left_iff (R := fun x y => x = y), List.forall₂_eq_eq_eq]
  rw [Contains_iff_occurs]
  unfold ContainsIgnoreCase ToLower
  constructor
  · rintro ⟨a, b, hab⟩
    obtain ⟨l₁, v, h1, h2, h3⟩ := List.map_eq_append_iff.mp hab.symm
    obtain ⟨u, w, h4, h5, h6⟩ := List.map_eq_append_iff.mp h2
    exact ⟨u, w, v, by rw [h1, h4], (hfold w).mpr h6⟩
  · rintro ⟨u, w, v, hs, hw⟩
    refine ⟨u.map lower, v.map lower, ?_⟩
    rw [hs, ← (hfold w).mp hw]
    simp

theorem refsWhere_lower_bound (p : Package → Bool) (pkgs : List Package) (i : Nat) :
    ∀ r ∈ refsWhere p pkgs i, i ≤ r := by
  induction pkgs generalizing i with
  | nil => simp [refsWhere]
  | cons pkg rest ih =>
    intro r hr
    simp only [refsWhere] at hr
    split_ifs at hr
    · rcases List.mem_cons.mp hr with e | e
      · exact Nat.le_of_eq e.symm
      · exact Nat.le_of_succ_le (ih (i + 1) r e)
    · exact Nat.le_of_succ_le (ih (i + 1) r hr)

theorem refsWhere_increasing (p : Package → Bool) (pkgs : List Package) (i : Nat) :
    (refsWhere p pkgs i).Pairwise (fun a b => a < b) := by
  induction pkgs generalizing i with
  | nil => simp [refsWhere]
  | cons pkg rest ih =>
    simp only [refsWhere]
    split_ifs
    · exact List.pairwise_cons.mpr ⟨fun r hr => refsWhere_lower_bound p rest (i + 1) r hr, ih (i + 1)⟩
    · exact ih (i + 1)

theorem SearchPackages_deref (lower : Char → Char) (m : Manager) (q : Str) :
    (SearchPackages lower m q).map m.get =
      m.packages.filter (searchMatch lower (ToLower lower q)) := by
  have h := refsWhere_deref (searchMatch lower (ToLower lower q)) default m.packages []
  simp only [List.length_nil, List.nil_append] at h
  exact h

/-- C6. `SearchPackages(q)` returns, in catalog order, exactly the packages
whose name or description contains `q` case-insensitively; the empty query
returns the whole catalog, and searching the result again with the same query
returns the same sequence. -/
theorem C6_search_packages (lower : Char → Char) (m : Manager) (q : Str) :
    ∃ keep : Package → Bool,
      (∀ pkg, keep pkg = true ↔
        (ContainsIgnoreCase lower pkg.Name q ∨ ContainsIgnoreCase lower pkg.Description q)) ∧
      (SearchPackages lower m q).map m.get = m.packages.filter keep ∧
      (SearchPackages lower m q).Pairwise (fun a b => a < b) ∧
      (SearchPackages lower m []).map m.get = m.packages ∧
      (SearchPackages lower { packages := (SearchPackages lower m q).map m.get } q).map
          (Manager.get { packages := (SearchPackages lower m q).map m.get }) =
        (SearchPackages lower m q).map m.get := by
  refine ⟨searchMatch lower (ToLower lower q), ?_, SearchPackages_deref lower m q,
    refsWhere_increasing _ _ _, ?_, ?_⟩
  · intro pkg
    simp only [searchMatch, Bool.or_eq_true, Contains_ToLower_iff]
  · rw [SearchPackages_deref]
    apply List.filter_eq_self.mpr
    intro pkg _
    simp only [searchMatch, Bool.or_eq_true, Contains_ToLower_iff]
    exact Or.inl ⟨[], [], pkg.Name, by simp, List.Forall₂.nil⟩
  · rw [SearchPackages_deref, SearchPackages_deref]
    simp

/-! ## Toggling -/

theorem flipSelected_flipSelected (pkgs : List Package) (i : Nat) :
    flipSelected (flipSelected pkgs i) i = pkgs := by
  unfold flipSelected
  induction pkgs generalizing i with
  | nil => simp
  | cons pkg rest ih =>
    cases i with
    | zero => simp
    | succ n => simp [ih n]

/-- C7. For every index, negative, in bounds or beyond the end of the catalog,
toggling twice gives back the catalog as it was, so the `Selected` flag of every
package is as before; with an index out of bounds a single toggle already
changes nothing (and the function is total: it cannot fail). -/
theorem C7_toggle_twice (m : Manager) (index : Int) :
    ToggleSelection (ToggleSelection m index) index = m ∧
    (ToggleSelection (ToggleSelection m index) index).packages.map (fun pkg => pkg.Selected) =
      m.packages.map (fun pkg => pkg.Selected) ∧
    (¬ (0 ≤ index ∧ index < (m.packages.length : Int)) → ToggleSelection m index = m) := by
  have h2 : ToggleSelection (ToggleSelection m index) index = m := by
    unfold ToggleSelection
    by_cases h : index ≥ 0 ∧ index < (m.packages.length : Int)
    · have hlen : (flipSelected m.packages index.toNat).length = m.packages.length := by
        simp [flipSelected]
      simp only [h, and_self, if_true, hlen, flipSelected_flipSelected]
    · simp only [h, if_false]
  refine ⟨h2, by rw [h2], ?_⟩
  intro h
  unfold ToggleSelection
  rw [if_neg h]

/-- Witness of C7 with indices out of bounds on both sides. -/
theorem C7_toggle_twice_witness :
    ToggleSelection sampleManager (-1) = sampleManager ∧
    ToggleSelection sampleManager 3 = sampleManager ∧
    ToggleSelection (ToggleSelection sampleManager 1) 1 = sampleManager :=
  ⟨(C7_toggle_twice sampleManager (-1)).2.2 (by decide),
   (C7_toggle_twice sampleManager 3).2.2 (by decide),
   (C7_toggle_twice sampleManager 1).1⟩

/-! ## Backup -/

theorem saveLoop_none (pkgs : List Package) (out : Str) :
    saveLoop none pkgs out =
      (none, out ++ (pkgs.filter (fun pkg => pkg.Selected)).flatMap backupLine) := by
  induction pkgs generalizing out with
  | nil => simp [saveLoop]
  | cons pkg rest ih =>
    by_cases hs : pkg.Selected = true
    · simp [saveLoop, hs, ih, List.flatMap_cons]
    · simp [saveLoop, hs, ih]

theorem rawLines_line (l rest : Str) (h : '\n' ∉ l) :
    rawLines (l ++ '\n' :: rest) = l :: rawLines rest := by
  induction l with
  | nil => simp [rawLines]
  | cons c cs ih =>
    have hc : ¬ c = '\n' := fun e => h (by simp [e])
    have hcs : '\n' ∉ cs := fun e => h (List.mem_cons_of_mem _ e)
    simp [rawLines, hc, ih hcs]

/-- The scanner gives back the lines written, one token per line, when no line
contains a line break. -/
theorem ScanLines_lines (ls : List Str) (h : ∀ l ∈ ls, '\n' ∉ l) :
    ScanLines (ls.flatMap (fun l => l ++ ['\n'])) = ls.map dropCR := by
  unfold ScanLines
  induction ls with
  | nil => simp [rawLines]
  | cons l rest ih =>
    have h1 : '\n' ∉ l := h l (by simp)
    have h2 : ∀ x ∈ rest, '\n' ∉ x := fun x hx => h x (List.mem_cons_of_mem _ hx)
    simp only [List.flatMap_cons, List.append_assoc, List.singleton_append, List.map_cons]
    rw [rawLines_line _ _ h1, List.map_cons, ih h2]

theorem dropCR_append (y x : Str) (hx : x ≠ []) : dropCR (y ++ x) = y ++ dropCR x := by
  unfold dropCR
  rw [List.getLast?_append_of_ne_nil _ hx]
  split_ifs
  · rw [List.dropLast_append_of_ne_nil _ hx]
  · rfl

theorem TrimRight_append_cons (x r : Str) (c : Char) (hc : isSpace c = false) :
    TrimRight (x ++ c :: r) = x ++ c :: TrimRight r := by
  unfold TrimRight
  rw [List.reverse_append, List.reverse_cons, List.append_assoc, List.dropWhile_append]
  split_ifs with h
  · have h' : r.reverse.dropWhile isSpace = [] := by simpa using h
    simp [h', List.dropWhile_cons, hc]
  · simp

theorem TrimLeft_of_head (x : Str) (h : ∀ c, x.head? = some c → isSpace c = false) :
    TrimLeft x = x :=
  dropWhile_of_head isSpace x h

/-- The name read back by `LoadBackup` from a scanned backup line: a trimmed
name without `|`, followed by `|`, is the first field. -/
theorem backup_token_name (name r : Str) (htrim : TrimSpace name = name) (hbar : '|' ∉ name) :
    TrimSpace (name ++ '|' :: r) ≠ [] ∧
    (Split '|' (TrimSpace (name ++ '|' :: r))).getD 0 [] = name := by
  have hhead : ∀ c, (name ++ '|' :: r).head? = some c → isSpace c = false := by
    intro c hc
    cases hn : name with
    | nil =>
      rw [hn] at hc
      simp only [List.nil_append, List.head?_cons, Option.some.injEq] at hc
      rw [← hc]
      exact isSpace_bar
    | cons d ds =>
      rw [hn] at hc
      simp only [List.cons_append, List.head?_cons, Option.some.injEq] at hc
      apply TrimSpace_head name
      rw [htrim, hn, ← hc]
      rfl
  have h1 : TrimSpace (name ++ '|' :: r) = name ++ '|' :: TrimRight r := by
    unfold TrimSpace
    rw [TrimLeft_of_head _ hhead, TrimRight_append_cons _ _ _ isSpace_bar]
  rw [h1]
  refine ⟨by simp, ?_⟩
  obtain ⟨f, fs, h2, h3⟩ := Split_append_left '|' name ('|' :: TrimRight r) hbar
  simp only [Split, if_true, List.cons.injEq] at h2
  rw [h3, ← h2.1]
  simp

theorem selectFirst_names (name : Str) (pkgs : List Package) :
    (selectFirst name pkgs).map (fun pkg => pkg.Name) = pkgs.map (fun pkg => pkg.Name) := by
  induction pkgs with
  | nil => rfl
  | cons pkg rest ih =>
    simp only [selectFirst]
    split_ifs
    · simp
    · simp [ih]

/-- The names selected after `selectFirst`: those selected before, and `name`
when the catalog has a package of that name. -/
theorem selectFirst_selected (name : Str) (pkgs : List Package) (n : Str) :
    (∃ p ∈ selectFirst name pkgs, p.Selected = true ∧ p.Name = n) ↔
      ((∃ p ∈ pkgs, p.Selected = true ∧ p.Name = n) ∨
        (n = name ∧ name ∈ pkgs.map (fun pkg => pkg.Name))) := by
  induction pkgs with
  | nil => simp [selectFirst]
  | cons pkg rest ih =>
    simp only [selectFirst]
    by_cases h : pkg.Name = name
    · simp only [h, if_true, List.mem_cons, exists_eq_or_imp, true_and, List.map_cons, true_or,
        and_true]
      constructor
      · rintro (e | ⟨p, hp, hs, hn⟩)
        · exact Or.inr e.symm
        · exact Or.inl (Or.inr ⟨p, hp, hs, hn⟩)
      · rintro ((⟨_, e⟩ | ⟨p, hp, hs, hn⟩) | e)
        · exact Or.inl e
        · exact Or.inr ⟨p, hp, hs, hn⟩
        · exact Or.inl e.symm
    · rw [if_neg h]
      constructor
      · rintro ⟨p, hp, hs, hn⟩
        rcases List.mem_cons.mp hp with rfl | hp
        · exact Or.inl ⟨p, List.mem_cons_self _ _, hs, hn⟩
        · rcases ih.mp ⟨p, hp, hs, hn⟩ with ⟨q, hq, hqs, hqn⟩ | ⟨e, hm⟩
          · exact Or.inl ⟨q, List.mem_cons_of_mem _ hq, hqs, hqn⟩
          · exact Or.inr ⟨e, List.mem_cons_of_mem _ hm⟩
      · rintro (⟨p, hp, hs, hn⟩ | ⟨e, hm⟩)
        · rcases List.mem_cons.mp hp with rfl | hp
          · exact ⟨p, List.mem_cons_self _ _, hs, hn⟩
          · obtain ⟨q, hq, hqs, hqn⟩ := ih.mpr (Or.inl ⟨p, hp, hs, hn⟩)
            exact ⟨q, List.mem_cons_of_mem _ hq, hqs, hqn⟩
        · have hm' : name ∈ rest.map (fun pkg => pkg.Name) := by
            rcases List.mem_cons.mp hm with e' | hm
            · exact absurd e'.symm h
            · exact hm
          obtain ⟨q, hq, hqs, hqn⟩ := ih.mpr (Or.inr ⟨e, hm'⟩)
          exact ⟨q, List.mem_cons_of_mem _ hq, hqs, hqn⟩

theorem foldl_selectFirst_names (ns : List Str) (pkgs : List Package) :
    (ns.foldl (fun acc n => selectFirst n acc) pkgs).map (fun pkg => pkg.Name) =
      pkgs.map (fun pkg => pkg.Name) := by
  induction ns generalizing pkgs with
  | nil => rfl
  | cons a rest ih => rw [List.foldl_cons, ih, selectFirst_names]

theorem foldl_selectFirst_selected (ns : List Str) (pkgs : List Package) (n : Str) :
    (∃ p ∈ ns.foldl (fun acc n => selectFirst n acc) pkgs, p.Selected = true ∧ p.Name = n) ↔
      ((∃ p ∈ pkgs, p.Selected = true ∧ p.Name = n) ∨
        (n ∈ ns ∧ n ∈ pkgs.map (fun pkg => pkg.Name))) := by
  induction ns generalizing pkgs with
  | nil => simp
  | cons a rest ih =>
    rw [List.foldl_cons, ih, selectFirst_selected, selectFirst_names]
    simp only [List.mem_cons]
    constructor
    · rintro ((h | ⟨rfl, h⟩) | ⟨h1, h2⟩)
      · exact Or.inl h
      · exact Or.inr ⟨Or.inl rfl, h⟩
      · exact Or.inr ⟨Or.inr h1, h2⟩
    · rintro (h | ⟨rfl | h1, h2⟩)
      · exact Or.inl (Or.inl h)
      · exact Or.inl (Or.inr ⟨rfl, h2⟩)
      · exact Or.inr ⟨h1, h2⟩

/-- The scanned form of the backup line of a package: the name, a `|`, and the
rest of the line. -/
theorem dropCR_backup_fields (pkg : Package) :
    ∃ r : Str, dropCR (pkg.Name ++ ['|'] ++ pkg.Description ++ ['|'] ++ pkg.Category ++ ['|'] ++
        pkg.RiskLevel) = pkg.Name ++ '|' :: r := by
  have h : pkg.Name ++ ['|'] ++ pkg.Description ++ ['|'] ++ pkg.Category ++ ['|'] ++ pkg.RiskLevel =
      (pkg.Name ++ ['|']) ++ (pkg.Description ++ '|' :: (pkg.Category ++ '|' :: pkg.RiskLevel)) := by
    simp
  rw [h, dropCR_append _ _ (by simp)]
  exact ⟨dropCR (pkg.Description ++ '|' :: (pkg.Category ++ '|' :: pkg.RiskLevel)), by simp⟩

/-- Reading back the lines written for the selected packages `sel` selects, line
after line, the first package of each name. -/
theorem loadBackup_written (sel : List Package)
    (hwf : ∀ p ∈ sel, TrimSpace p.Name = p.Name ∧ '|' ∉ p.Name) (m : Manager) :
    ((sel.map (fun pkg => dropCR (pkg.Name ++ ['|'] ++ pkg.Description ++ ['|'] ++
        pkg.Category ++ ['|'] ++ pkg.RiskLevel))).foldl loadBackupLine m).packages =
      (sel.map (fun pkg => pkg.Name)).foldl (fun acc n => selectFirst n acc) m.packages := by
  induction sel generalizing m with
  | nil => rfl
  | cons pkg rest ih =>
    have hp := hwf pkg (List.mem_cons_self _ _)
    have hrest : ∀ p ∈ rest, TrimSpace p.Name = p.Name ∧ '|' ∉ p.Name :=
      fun p hp => hwf p (List.mem_cons_of_mem _ hp)
    obtain ⟨r, hr⟩ := dropCR_backup_fields pkg
    obtain ⟨h1, h2⟩ := backup_token_name pkg.Name r hp.1 hp.2
    have hstep : loadBackupLine m (dropCR (pkg.Name ++ ['|'] ++ pkg.Description ++ ['|'] ++
        pkg.Category ++ ['|'] ++ pkg.RiskLevel)) =
        { m with packages := selectFirst pkg.Name m.packages } := by
      rw [hr]
      unfold loadBackupLine
      have hlen : ¬ (Split '|' (TrimSpace (pkg.Name ++ '|' :: r))).length < 1 := by
        have := Split_ne_nil '|' (TrimSpace (pkg.Name ++ '|' :: r))
        cases hs : Split '|' (TrimSpace (pkg.Name ++ '|' :: r)) with
        | nil => exact absurd hs this
        | cons f fs => simp
      simp only [h1, if_false, hlen, h2]
    simp only [List.map_cons, List.foldl_cons]
    rw [hstep, ih hrest]

/-- C8, counterexample: a package named `a|b` (the manifest line `a|b` gives
it) is selected; the backup line written for it is read back as the name `a`
and selects nothing in the fresh catalog with the same names. -/
theorem C8_counterexample :
    parseLine "a|b".toList = some { Name := "a|b".toList } ∧
    (SaveBackup { packages := [{ Name := "a|b".toList, Selected := true }] } (.ok {})).2 =
      "a|b|||\n".toList ∧
    (LoadBackup { packages := [{ Name := "a|b".toList }] }
      (.ok { tokens := ScanLines "a|b|||\n".toList })) =
      (none, { packages := [{ Name := "a|b".toList, Selected := false }] }) ∧
    ¬ (∀ n : Str,
        (∃ p ∈ (LoadBackup { packages := [{ Name := "a|b".toList }] }
            (.ok { tokens := ScanLines (SaveBackup
              { packages := [{ Name := "a|b".toList, Selected := true }] } (.ok {})).2 })).2.packages,
          p.Selected = true ∧ p.Name = n) ↔
        (∃ p ∈ ({ packages := [{ Name := "a|b".toList, Selected := true }] } : Manager).packages,
          p.Selected = true ∧ p.Name = n)) := by
  refine ⟨by decide, by decide, by decide, ?_⟩
  intro h
  have h1 := (h "a|b".toList).mpr ⟨_, List.mem_singleton.mpr rfl, rfl, rfl⟩
  revert h1
  decide

/-- C8, amended. For a catalog `C` in any selection state whose selected
packages have a trimmed name without `|` and fields without line break (what
`LoadPackages` produces, apart from `|` in a name), and a fresh catalog `C'`
with the same names: `SaveBackup` succeeds when every write does, `LoadBackup`
on `C'` of the file it wrote succeeds, and the names selected in `C'` afterwards
are exactly the names selected in `C`. -/
theorem C8_backup_round_trip (C C' : Manager)
    (hnames : ∀ n : Str, n ∈ C.packages.map (fun pkg => pkg.Name) ↔
      n ∈ C'.packages.map (fun pkg => pkg.Name))
    (hfresh : ∀ p ∈ C'.packages, p.Selected = false)
    (hwf : ∀ p ∈ C.packages, p.Selected = true →
      TrimSpace p.Name = p.Name ∧ '|' ∉ p.Name ∧ '\n' ∉ p.Name ∧ '\n' ∉ p.Description ∧
        '\n' ∉ p.Category ∧ '\n' ∉ p.RiskLevel) :
    (SaveBackup C (.ok {})).1 = none ∧
    (LoadBackup C' (.ok { tokens := ScanLines (SaveBackup C (.ok {})).2 })).1 = none ∧
    ∀ n : Str,
      (∃ p ∈ (LoadBackup C' (.ok { tokens := ScanLines (SaveBackup C (.ok {})).2 })).2.packages,
        p.Selected = true ∧ p.Name = n) ↔
      (∃ p ∈ C.packages, p.Selected = true ∧ p.Name = n) := by
  have hsave : SaveBackup C (.ok {}) =
      (none, (C.packages.filter (fun pkg => pkg.Selected)).flatMap backupLine) := by
    simp [SaveBackup, saveLoop_none]
  have hsel : ∀ p ∈ C.packages.filter (fun pkg => pkg.Selected),
      p ∈ C.packages ∧ p.Selected = true := by
    intro p hp
    simpa using List.mem_filter.mp hp
  have htext : (C.packages.filter (fun pkg => pkg.Selected)).flatMap backupLine =
      ((C.packages.filter (fun pkg => pkg.Selected)).map (fun pkg =>
        pkg.Name ++ ['|'] ++ pkg.Description ++ ['|'] ++ pkg.Category ++ ['|'] ++
          pkg.RiskLevel)).flatMap (fun l => l ++ ['\n']) := by
    simp only [List.flatMap, List.map_map]
    congr 1
  have htok : ScanLines (SaveBackup C (.ok {})).2 =
      (C.packages.filter (fun pkg => pkg.Selected)).map (fun pkg =>
        dropCR (pkg.Name ++ ['|'] ++ pkg.Description ++ ['|'] ++ pkg.Category ++ ['|'] ++
          pkg.RiskLevel)) := by
    rw [hsave]
    simp only []
    rw [htext, ScanLines_lines, List.map_map]
    · rfl
    · intro l hl
      obtain ⟨p, hp, rfl⟩ := List.mem_map.mp hl
      obtain ⟨hp1, hp2⟩ := hsel p hp
      obtain ⟨_, _, h1, h2, h3, h4⟩ := hwf p hp1 hp2
      simp only [List.mem_append, List.mem_singleton, not_or]
      exact ⟨⟨⟨⟨⟨⟨h1, by decide⟩, h2⟩, by decide⟩, h3⟩, by decide⟩, h4⟩
  have hload1 : (LoadBackup C' (.ok { tokens := ScanLines (SaveBackup C (.ok {})).2 })).1 = none := by
    simp [LoadBackup]
  have hload2 :
      (LoadBackup C' (.ok { tokens := ScanLines (SaveBackup C (.ok {})).2 })).2.packages =
        List.foldl (fun acc n => selectFirst n acc) C'.packages
          ((C.packages.filter (fun pkg => pkg.Selected)).map (fun pkg => pkg.Name)) := by
    have hw := loadBackup_written (C.packages.filter (fun pkg => pkg.Selected))
      (fun p hp => ⟨(hwf p (hsel p hp).1 (hsel p hp).2).1, (hwf p (hsel p hp).1 (hsel p hp).2).2.1⟩) C'
    simp only [LoadBackup, htok]
    rw [← hw]
  refine ⟨by rw [hsave], hload1, ?_⟩
  intro n
  rw [hload2, foldl_selectFirst_selected]
  constructor
  · rintro (⟨p, hp, hs, _⟩ | ⟨h1, _⟩)
    · rw [hfresh p hp] at hs
      cases hs
    · obtain ⟨p, hp, rfl⟩ := List.mem_map.mp h1
      exact ⟨p, (hsel p hp).1, (hsel p hp).2, rfl⟩
  · rintro ⟨p, hp, hs, rfl⟩
    refine Or.inr ⟨List.mem_map.mpr ⟨p, List.mem_filter.mpr ⟨hp, hs⟩, rfl⟩, ?_⟩
    exact (hnames p.Name).mp (List.mem_map.mpr ⟨p, hp, rfl⟩)

theorem mem_of_mem_TrimSpace (s : Str) (c : Char) (h : c ∈ TrimSpace s) : c ∈ s := by
  obtain ⟨a, b, _, _, hs⟩ := TrimSpace_decomp s
  rw [hs]
  simp [h]

theorem mem_of_mem_Split (sep : Char) (s : Str) :
    ∀ f ∈ Split sep s, ∀ c ∈ f, c ∈ s := by
  induction s with
  | nil =>
    intro f hf c hc
    simp only [Split, List.mem_singleton] at hf
    rw [hf] at hc
    exact hc
  | cons d ds ih =>
    intro f hf c hc
    simp only [Split] at hf
    split_ifs at hf with hd
    · rcases List.mem_cons.mp hf with rfl | hf
      · simp at hc
      · exact List.mem_cons_of_mem _ (ih f hf c hc)
    · cases hs : Split sep ds with
      | nil => exact absurd hs (Split_ne_nil sep ds)
      | cons g gs =>
        rw [hs] at hf ih
        rcases List.mem_cons.mp hf with rfl | hf
        · rcases List.mem_cons.mp hc with rfl | hc
          · exact List.mem_cons_self _ _
          · exact List.mem_cons_of_mem _ (ih g (List.mem_cons_self _ _) c hc)
        · exact List.mem_cons_of_mem _ (ih f (List.mem_cons_of_mem _ hf) c hc)

theorem getD_nil_or_mem (l : List Str) (i : Nat) : l.getD i [] = [] ∨ l.getD i [] ∈ l := by
  induction l generalizing i with
  | nil => exact Or.inl (by simp)
  | cons x xs ih =>
    cases i with
    | zero => exact Or.inr (by simp)
    | succ n =>
      rcases ih n with h | h
      · exact Or.inl (by simpa using h)
      · exact Or.inr (List.mem_cons_of_mem _ (by simpa using h))

theorem mem_field (s : Str) (i : Nat) (c : Char)
    (h : c ∈ TrimSpace ((Split '|' s).getD i [])) : c ∈ s := by
  have h1 := mem_of_mem_TrimSpace _ _ h
  rcases getD_nil_or_mem (Split '|' s) i with h2 | h2
  · rw [h2] at h1
    simp at h1
  · exact mem_of_mem_Split '|' s _ h2 c h1

/-- What `LoadPackages` guarantees of the packages it builds: the name is
trimmed, and every rune of a field is a rune of the line, so a line without line
break gives fields without line break. -/
theorem parseLine_wellformed (text : Str) (pkg : Package) (h : parseLine text = some pkg) :
    TrimSpace pkg.Name = pkg.Name ∧
    (∀ c, c ∈ pkg.Name ∨ c ∈ pkg.Description ∨ c ∈ pkg.Category ∨ c ∈ pkg.RiskLevel →
      c ∈ text) := by
  have htake : ∀ c, c ∈ TrimSpace ((TrimSpace text).takeWhile (fun c => c != '#')) → c ∈ text :=
    fun c hc => mem_of_mem_TrimSpace _ _
      ((List.takeWhile_sublist _).subset (mem_of_mem_TrimSpace _ _ hc))
  have hdrop : ∀ c, c ∈ ((TrimSpace text).dropWhile (fun c => c != '#')).tail → c ∈ text :=
    fun c hc => mem_of_mem_TrimSpace _ _
      ((List.dropWhile_sublist _).subset (List.mem_of_mem_tail hc))
  rw [parseLine_cases] at h
  split_ifs at h with h0 h1 h2
  · simp only [Option.some.injEq] at h
    subst h
    refine ⟨TrimSpace_idem _, ?_⟩
    rintro c (hc | hc | hc | hc)
    · exact htake c hc
    · exact hdrop c (mem_of_mem_TrimSpace _ _ (mem_field _ 0 c hc))
    · exact hdrop c (mem_of_mem_TrimSpace _ _ (mem_field _ 1 c hc))
    · exact hdrop c (mem_of_mem_TrimSpace _ _ (mem_field _ 2 c hc))
  · simp only [Option.some.injEq] at h
    subst h
    refine ⟨TrimSpace_idem _, ?_⟩
    rintro c (hc | hc | hc | hc)
    · exact htake c hc
    · exact hdrop c (mem_of_mem_TrimSpace _ _ hc)
    · simp at hc
    · simp at hc
  · simp only [Option.some.injEq] at h
    subst h
    refine ⟨TrimSpace_idem _, ?_⟩
    rintro c (hc | hc | hc | hc)
    · exact mem_of_mem_TrimSpace _ _ hc
    · simp at hc
    · simp at hc
    · simp at hc

theorem rawLines_no_newline (text : Str) : ∀ t ∈ rawLines text, '\n' ∉ t := by
  induction text with
  | nil => simp [rawLines]
  | cons c cs ih =>
    intro t ht
    simp only [rawLines] at ht
    split_ifs at ht with hc
    · rcases List.mem_cons.mp ht with rfl | ht
      · simp
      · exact ih t ht
    · cases hs : rawLines cs with
      | nil =>
        rw [hs] at ht
        simp only [List.mem_singleton] at ht
        rw [ht]
        simpa using fun e : '\n' = c => hc e.symm
      | cons g gs =>
        rw [hs] at ht ih
        rcases List.mem_cons.mp ht with rfl | ht
        · intro hmem
          rcases List.mem_cons.mp hmem with e | hmem
          · exact hc e.symm
          · exact ih g (List.mem_cons_self _ _) hmem
        · exact ih t (List.mem_cons_of_mem _ ht)

/-- The scanner delivers no line that contains a line break. -/
theorem ScanLines_no_newline (text : Str) : ∀ t ∈ ScanLines text, '\n' ∉ t := by
  intro t ht
  obtain ⟨r, hr, rfl⟩ := List.mem_map.mp ht
  have h := rawLines_no_newline text r hr
  unfold dropCR
  split_ifs
  · exact fun hm => h (List.mem_of_mem_dropLast hm)
  · exact h

/-- Witness of C8: the sample catalog, saved and loaded into `freshManager`. -/
theorem C8_backup_round_trip_witness :
    (SaveBackup sampleManager (.ok {})).1 = none ∧
    (LoadBackup freshManager
      (.ok { tokens := ScanLines (SaveBackup sampleManager (.ok {})).2 })).1 = none ∧
    ∀ n : Str,
      (∃ p ∈ (LoadBackup freshManager
          (.ok { tokens := ScanLines (SaveBackup sampleManager (.ok {})).2 })).2.packages,
        p.Selected = true ∧ p.Name = n) ↔
      (∃ p ∈ sampleManager.packages, p.Selected = true ∧ p.Name = n) :=
  C8_backup_round_trip sampleManager freshManager
    (by intro n; simp only [sampleManager, freshManager, List.map_cons, List.map_nil,
          List.mem_cons, List.mem_singleton]; tauto)
    (by decide) (by decide)

theorem SelectionGrows_refl (pkgs : List Package) : List.Forall₂ SelectionGrows pkgs pkgs := by
  induction pkgs with
  | nil => exact List.Forall₂.nil
  | cons pkg rest ih => exact List.Forall₂.cons ⟨rfl, fun h => h⟩ ih

theorem SelectionGrows_trans {a b c : List Package} (h1 : List.Forall₂ SelectionGrows a b)
    (h2 : List.Forall₂ SelectionGrows b c) : List.Forall₂ SelectionGrows a c := by
  induction h1 generalizing c with
  | nil => cases h2; exact List.Forall₂.nil
  | cons hab _ ih =>
    cases h2 with
    | cons hbc hrest =>
      refine List.Forall₂.cons ⟨?_, fun h => hbc.2 (hab.2 h)⟩ (ih hrest)
      rw [hbc.1, hab.1]

theorem selectFirst_grows (name : Str) (pkgs : List Package) :
    List.Forall₂ SelectionGrows pkgs (selectFirst name pkgs) := by
  induction pkgs with
  | nil => exact List.Forall₂.nil
  | cons pkg rest ih =>
    simp only [selectFirst]
    split_ifs
    · exact List.Forall₂.cons ⟨rfl, fun _ => rfl⟩ (SelectionGrows_refl rest)
    · exact List.Forall₂.cons ⟨rfl, fun h => h⟩ ih

theorem loadBackupLine_grows (m : Manager) (text : Str) :
    List.Forall₂ SelectionGrows m.packages (loadBackupLine m text).packages := by
  unfold loadBackupLine
  dsimp only
  split_ifs
  · exact SelectionGrows_refl _
  · exact SelectionGrows_refl _
  · exact selectFirst_grows _ _

theorem foldl_loadBackupLine_grows (tokens : List Str) (m : Manager) :
    List.Forall₂ SelectionGrows m.packages (tokens.foldl loadBackupLine m).packages := by
  induction tokens generalizing m with
  | nil => exact SelectionGrows_refl _
  | cons t rest ih =>
    exact SelectionGrows_trans (loadBackupLine_grows m t) (ih (loadBackupLine m t))

/-- C9, counterexample: the scanner delivers the line `com.a|||` and then
reports a read error; `LoadBackup` returns the error, and `com.a`, which was
not selected, is selected. -/
theorem C9_counterexample :
    LoadBackup { packages := [{ Name := "com.a".toList, Selected := false }] }
        (.ok { tokens := ["com.a|||".toList], err := some "token too long".toList }) =
      (some "error reading backup file: token too long".toList,
        { packages := [{ Name := "com.a".toList, Selected := true }] }) := by
  decide

/-- C9, amended. When `LoadBackup` returns an error because the file cannot be
opened, the catalog is as before the call. When it returns an error because
reading fails part-way, the catalog is what a successful load of the lines read
before the failure leaves. In both cases nothing but `Selected` flags changes
and every package selected before the call is still selected. -/
theorem C9_load_backup_failure (m : Manager) (file : OpenResult)
    (h : (LoadBackup m file).1 ≠ none) :
    (∀ e, file = .error e → (LoadBackup m file).2 = m) ∧
    (∀ scanner, file = .ok scanner →
      scanner.err ≠ none ∧
      (LoadBackup m file).2 = (LoadBackup m (.ok { scanner with err := none })).2) ∧
    List.Forall₂ SelectionGrows m.packages (LoadBackup m file).2.packages := by
  refine ⟨?_, ?_, ?_⟩
  · rintro e rfl
    rfl
  · rintro scanner rfl
    cases he : scanner.err with
    | none => simp [LoadBackup, he] at h
    | some e => simp [LoadBackup, he]
  · cases file with
    | error e => exact SelectionGrows_refl _
    | ok scanner =>
      have := foldl_loadBackupLine_grows scanner.tokens m
      cases he : scanner.err with
      | none => simpa [LoadBackup, he] using this
      | some e => simpa [LoadBackup, he] using this

/-- Witness of C9 on the input of the counterexample. -/
theorem C9_load_backup_failure_witness :
    (LoadBackup { packages := [{ Name := "com.a".toList, Selected := false }] }
        (.ok { tokens := ["com.a|||".toList], err := some "token too long".toList })).1 ≠ none ∧
    List.Forall₂ SelectionGrows [{ Name := "com.a".toList, Selected := false }]
      (LoadBackup { packages := [{ Name := "com.a".toList, Selected := false }] }
        (.ok { tokens := ["com.a|||".toList], err := some "token too long".toList })).2.packages :=
  ⟨by decide,
    (C9_load_backup_failure { packages := [{ Name := "com.a".toList, Selected := false }] }
      (.ok { tokens := ["com.a|||".toList], err := some "token too long".toList })
      (by decide)).2.2⟩

/-! ## The toggle key -/

/-- C10, the code on a list left filtered by a search. From the start, `F5`,
the rune `b` and `Esc` lead back to the Listing state with only `com.b`
displayed, under the cursor. The toggle key then flips `Selected` on `com.a`,
the first package of the catalog, not on the package displayed at the cursor,
and puts `com.a` in the displayed list. -/
theorem C10_space_on_filtered_list :
    UpdateAll simBubbles twoPackages
      [.KeyMsg .KeyF5 [], .KeyMsg .KeyRunes ['b'], .KeyMsg .KeyEsc []] = some filteredModel ∧
    filteredModel.state = .StateList ∧
    filteredModel.list.items = [1] ∧ filteredModel.list.Index = 0 ∧
    filteredModel.packageManager.get 1 = { Name := "com.b".toList } ∧
    ∀ w : Bubbles, ∃ (m : Model) (cmd : Cmd),
      Update w filteredModel (.KeyMsg .KeySpace [' ']) = some (m, cmd) ∧
      m.packageManager.packages =
        [ { Name := "com.a".toList, Selected := true },
          { Name := "com.b".toList, Selected := false } ] ∧
      m.list.items = (w.listUpdate { items := [0], index := 0 } (.KeyMsg .KeySpace [' '])).1.items ∧
      m.selectedCount = 1 :=
  ⟨by decide, rfl, rfl, rfl, rfl, fun _ => ⟨_, _, rfl, rfl, rfl, rfl⟩⟩

/-! ## The Confirming state -/

theorem updateComponents_dryRun (w : Bubbles) (m : Model) (cmd : Cmd) (msg : Msg) :
    (updateComponents w m cmd msg).1.dryRun = m.dryRun := by
  unfold updateComponents
  cases m.state <;> rfl

theorem filterPackages_dryRun (w : Bubbles) (m : Model) :
    (filterPackages w m).dryRun = m.dryRun := by
  unfold filterPackages
  dsimp only
  split_ifs <;> rfl

/-- No case of the first `switch` of `Update` writes the simulate-only flag. -/
theorem handleMsg_dryRun (w : Bubbles) (m : Model) (msg : Msg) :
    match handleMsg w m msg with
    | some (.inl r) => r.1.dryRun = m.dryRun
    | some (.inr r) => r.1.dryRun = m.dryRun
    | none => True := by
  cases msg with
  | KeyMsg type runes =>
    cases type <;> simp only [handleMsg]
    case KeyEnter => cases m.state <;> rfl
    case KeySpace =>
      split_ifs
      · simp only [updateSelectedCount]
        generalize ListModel.SetItem _ _ _ = o
        cases o <;> simp
      · trivial
      · trivial
    case KeyTab => split_ifs <;> simp [filterPackages_dryRun]
    case KeyBackspace => split_ifs <;> simp [filterPackages_dryRun]
    case KeyRunes => split_ifs <;> simp [filterPackages_dryRun]
    case KeyOther => split_ifs <;> simp [filterPackages_dryRun]
    all_goals first
      | trivial
      | (split_ifs <;> rfl)
  | _ => simp [handleMsg, addLog]

/-- C11, the code: no message handled by `Update`, in any state, changes the
simulate-only flag; in the Confirming state the key shown to the operator as
Tab is handled by returning the model unchanged, so the flag is not flipped. -/
theorem C11_no_key_flips_dry_run (w : Bubbles) (m : Model) (msg : Msg) (runes : Str) :
    (match Update w m msg with
      | some r => r.1.dryRun = m.dryRun
      | none => True) ∧
    Update w { m with state := .StateConfirm } (.KeyMsg .KeyTab runes) =
      some ({ m with state := .StateConfirm }, .nil) ∧
    Update w confirmModel (.KeyMsg .KeyTab []) = some (confirmModel, .nil) ∧
    confirmModel.dryRun = false := by
  refine ⟨?_, rfl, rfl, rfl⟩
  have h := handleMsg_dryRun w m msg
  unfold Update
  cases hh : handleMsg w m msg with
  | none => trivial
  | some r =>
    rw [hh] at h
    cases r with
    | inl r => exact h
    | inr r =>
      obtain ⟨m', cmd⟩ := r
      simp only [updateComponents_dryRun]
      exact h

/-- C12, the code: in the Confirming state the escape key is handled by
returning the model unchanged and no command; the state stays Confirming, no
batch is started and no package changes. -/
theorem C12_escape_in_confirm (w : Bubbles) (m : Model) (runes : Str) :
    Update w { m with state := .StateConfirm } (.KeyMsg .KeyEsc runes) =
      some ({ m with state := .StateConfirm }, .nil) ∧
    Update w confirmModel (.KeyMsg .KeyEsc []) = some (confirmModel, .nil) ∧
    confirmModel.state = .StateConfirm :=
  ⟨rfl, rfl, rfl⟩

/-! ## Counting -/

theorem GetSelectedCount_all (pkgs : List Package) (h : ∀ p ∈ pkgs, p.Selected = true) :
    GetSelectedCount { packages := pkgs } = pkgs.length := by
  rw [GetSelectedCount_eq_length_filter]
  congr 1
  exact List.filter_eq_self.mpr h

/-- C15. After `SelectAll` the number of selected packages is the total number
of packages (which `SelectAll` does not change); after `DeselectAll` it is 0. -/
theorem C15_select_all_counts (m : Manager) :
    GetSelectedCount (SelectAll m) = GetTotalCount (SelectAll m) ∧
    GetTotalCount (SelectAll m) = GetTotalCount m ∧
    GetSelectedCount (DeselectAll m) = 0 := by
  refine ⟨?_, by simp [GetTotalCount, SelectAll], ?_⟩
  · rw [GetSelectedCount_eq_length_filter]
    simp [GetTotalCount, SelectAll, List.filter_map, Function.comp_def]
  · rw [GetSelectedCount_eq_length_filter]
    simp [DeselectAll, List.filter_map, Function.comp_def]

/-! ## The Searching state -/

theorem filterPackages_state (w : Bubbles) (m : Model) :
    (filterPackages w m).state = m.state := by
  unfold filterPackages
  dsimp only
  split_ifs <;> rfl

theorem filterPackages_searchInput (w : Bubbles) (m : Model) :
    (filterPackages w m).searchInput = m.searchInput := by
  unfold filterPackages
  dsimp only
  split_ifs <;> rfl

theorem filterPackages_items (w : Bubbles) (m : Model) :
    (filterPackages w m).list.items =
      if m.searchInput.value = [] then m.packages
      else SearchPackages w.lower m.packageManager m.searchInput.value := by
  unfold filterPackages
  dsimp only [TextInput.Value]
  split_ifs <;> rfl

/-- A rune typed in the Searching state goes through the text input twice: the
list is filtered by the text after the first pass, the text kept is the text
after the second pass. -/
theorem Update_search_runes (w : Bubbles) (m : Model) (runes : Str) :
    ∃ r : Model × Cmd,
      Update w { m with state := .StateSearch } (.KeyMsg .KeyRunes runes) = some r ∧
      r.1.state = .StateSearch ∧
      r.1.searchInput =
        (w.inputUpdate (w.inputUpdate m.searchInput (.KeyMsg .KeyRunes runes)).1
          (.KeyMsg .KeyRunes runes)).1 ∧
      r.1.list.items =
        if (w.inputUpdate m.searchInput (.KeyMsg .KeyRunes runes)).1.value = [] then m.packages
        else SearchPackages w.lower m.packageManager
          (w.inputUpdate m.searchInput (.KeyMsg .KeyRunes runes)).1.value := by
  have hs : ∀ input : TextInput,
      (filterPackages w { m with state := .StateSearch, searchInput := input }).state =
        .StateSearch := by
    intro input
    rw [filterPackages_state]
  refine ⟨_, rfl, ?_, ?_, ?_⟩
  · simp only [updateComponents, hs]
  · simp only [updateComponents, hs, filterPackages_searchInput]
  · simp only [updateComponents, hs, filterPackages_items]

/-- C13, the code on a typed rune. `F5` opens the search on the catalog
`com.b`, `com.bb`. Typing `b` leaves the text `bb` in the search input (the
key is given to the input twice) while the displayed list is the one filtered
by `b`, both packages, not `SearchPackages` of the text, which is `com.bb`
alone. In the same way, on the catalog `com.a`, `com.b` with the text `bb`,
`Backspace` empties the text while the list is the one filtered by `b`, `com.b`
alone, not the full catalog. -/
theorem C13_search_text_and_list_differ :
    UpdateAll simBubbles searchApp [.KeyMsg .KeyF5 []] = some searchModel ∧
    (∃ m : Model,
      Update simBubbles searchModel (.KeyMsg .KeyRunes ['b']) = some (m, .nil) ∧
      m.state = .StateSearch ∧
      m.searchInput.Value = "bb".toList ∧
      m.list.items = [0, 1] ∧
      SearchPackages simBubbles.lower m.packageManager m.searchInput.Value = [1]) ∧
    (∃ m : Model,
      Update simBubbles { filteredModel with state := .StateSearch }
        (.KeyMsg .KeyBackspace []) = some (m, .nil) ∧
      m.state = .StateSearch ∧
      m.searchInput.Value = [] ∧
      m.list.items = [1] ∧
      m.packages = [0, 1]) :=
  ⟨by decide, ⟨_, rfl, by decide, by decide, by decide, by decide⟩,
    ⟨_, rfl, by decide, by decide, by decide, by decide⟩⟩

/-! ## The installation check of the client -/

theorem rawLines_head_isPrefix (text g : Str) (gs : List Str) (h : rawLines text = g :: gs) :
    g <+: text := by
  induction text generalizing g gs with
  | nil => simp [rawLines] at h
  | cons c cs ih =>
    simp only [rawLines] at h
    split_ifs at h with hc
    · simp only [List.cons.injEq] at h
      rw [← h.1]
      exact List.nil_prefix
    · cases hs : rawLines cs with
      | nil =>
        rw [hs] at h
        simp only [List.cons.injEq] at h
        rw [← h.1]
        exact ⟨cs, rfl⟩
      | cons k ks =>
        rw [hs] at h
        simp only [List.cons.injEq] at h
        rw [← h.1]
        obtain ⟨t, ht⟩ := ih k ks hs
        exact ⟨t, by rw [← ht]; rfl⟩

theorem rawLines_occurs (text : Str) : ∀ t ∈ rawLines text, t <:+: text := by
  induction text with
  | nil => simp [rawLines]
  | cons c cs ih =>
    intro t ht
    simp only [rawLines] at ht
    split_ifs at ht with hc
    · rcases List.mem_cons.mp ht with rfl | ht
      · exact List.nil_infix
      · exact List.infix_cons (ih t ht)
    · cases hs : rawLines cs with
      | nil =>
        rw [hs] at ht
        simp only [List.mem_singleton] at ht
        rw [ht]
        exact (show [c] <+: c :: cs from ⟨cs, rfl⟩).isInfix
      | cons k ks =>
        rw [hs] at ht ih
        rcases List.mem_cons.mp ht with rfl | ht
        · obtain ⟨u, hu⟩ := rawLines_head_isPrefix cs k ks hs
          exact (show c :: k <+: c :: cs from ⟨u, by rw [← hu]; rfl⟩).isInfix
        · exact List.infix_cons (ih t (List.mem_cons_of_mem _ ht))

/-- A package listed in the output is reported installed: the direction of the
claim that the substring test does satisfy. -/
theorem IsPackageInstalled_of_listed {σ : Type} (c : Client) (sh : Shell σ) (s : σ) (pkg : Str)
    (herr : (sh.run s [c.adbPath, "shell".toList, "pm".toList, "list".toList,
      "packages".toList, pkg]).1.err = none)
    (h : ListedIn (sh.run s [c.adbPath, "shell".toList, "pm".toList, "list".toList,
      "packages".toList, pkg]).1.output pkg) :
    (c.IsPackageInstalled sh s pkg).1 = { ok := true } := by
  unfold ListedIn ScanLines at h
  obtain ⟨raw, hraw, hdrop⟩ := List.mem_map.mp h
  have h1 : raw <:+: _ := rawLines_occurs _ raw hraw
  have h2 : dropCR raw <+: raw := by
    unfold dropCR
    split_ifs
    · exact List.dropLast_prefix raw
    · exact List.prefix_refl raw
  have h3 := (Contains_iff_occurs _ _).mpr (List.IsInfix.trans h2.isInfix h1)
  rw [hdrop] at h3
  simp only [Client.IsPackageInstalled, herr, h3]

/-- C14, the code on a package whose name is the beginning of another one.
Only `com.foo.bar` is installed: `pm list packages com.foo` prints the line
`package:com.foo.bar`, no line of the output is `package:com.foo`, and
`ListPackages` lists `com.foo.bar` alone; `IsPackageInstalled("com.foo")`
returns true all the same, because it looks for the text `package:com.foo`
anywhere in the output. -/
theorem C14_prefix_name_reported_installed :
    ((NewClient []).IsPackageInstalled simShell ["com.foo.bar".toList] "com.foo".toList).1 =
      { ok := true, err := none } ∧
    (simShell.run ["com.foo.bar".toList] ["adb".toList, "shell".toList, "pm".toList,
      "list".toList, "packages".toList, "com.foo".toList]).1 =
      { output := "package:com.foo.bar\n".toList, err := none } ∧
    ScanLines "package:com.foo.bar\n".toList = ["package:com.foo.bar".toList] ∧
    ¬ ListedIn "package:com.foo.bar\n".toList "com.foo".toList ∧
    ((NewClient []).ListPackages simShell ["com.foo.bar".toList]).1 =
      .ok ["com.foo.bar".toList] := by
  refine ⟨by decide, by decide, by decide, ?_, ?_⟩
  · unfold ListedIn
    decide
  · rfl

end ADBCleaner
